import Mathlib

/-!
# The Stockfish stdio bridge (`app/src/main/cpp/bridge.cpp`)

A shallow embedding of the three JNI entry points of `bridge.cpp`

* `startEngine`  : two `pipe` calls, two `dup2` calls, two `fdopen` calls, one detached thread;
* `sendCommand`  : `fprintf(stockfish_in, "%s\n", cmd)` followed by `fflush`;
* `readOutput`   : `fgets(line, 1024, stockfish_out)`, `strlen`, strip one trailing `'\n'`,
                   `NewStringUTF(line)`;

together with the part of the C library and of the kernel they call.

Conventions.

* A byte (`char`) is a `Nat`; `'\n'` is `10`, the string terminator NUL is `0`.
* A `jstring` crosses the JNI boundary as a NUL-terminated `char` array
  (`GetStringUTFChars` / `NewStringUTF`, modified UTF-8, which never contains an interior NUL).
  `sendCommand` takes that array, `readOutput` returns the bytes of the array handed to
  `NewStringUTF`.
* The kernel is a descriptor table plus one byte queue per pipe.  Pipes have no capacity limit,
  so a write never waits.  A read that would wait for the engine is the result `none` of
  `readOutput`: what such a call returns depends on bytes that have not been written yet.
* The read-ahead buffer of `stockfish_out` is not separated from the pipe it reads: the bytes
  pending on the stream are the bytes written to the pipe and not yet handed out by `fgets`.
* The engine (`stockfish_main`, the Stockfish library) is not part of the bridge; it appears
  only as the environment steps `engineWrite` and `closeFd`.  Calls of the bridge and steps
  of the engine follow one another; nothing happens in the middle of a call.
* Left out: a null result of `GetStringUTFChars`, a failure to create the thread, and the
  decoding `NewStringUTF` applies to the bytes it is handed.
-/

namespace Bridge

/-! ## Kernel: descriptors and pipes -/

/-- What an open file descriptor refers to.  An Android application process starts with its
three standard descriptors on `/dev/null`; every other channel in this program is a pipe end. -/
inductive Chan where
  | devNull
  | pipeRead (p : Nat)
  | pipeWrite (p : Nat)
deriving DecidableEq, Repr

/-- The `mode` argument of `fdopen`: `"r"` or `"w"`. -/
inductive Mode where
  | r
  | w
deriving DecidableEq, Repr

/-- A library or system call made by the bridge, recorded in the order the calls are made. -/
inductive Call where
  | pipe (res : Option (Nat × Nat))
  | dup2 (oldfd newfd : Nat)
  | fdopen (fd : Nat) (mode : Mode)
  | thread
  | write (fd : Nat) (bytes : List Nat)
  | read (fd : Nat)
deriving DecidableEq, Repr

/-- Kernel-side state of the process.
`fds[i]` is what descriptor `i` refers to (`none`: closed), `nofile` is the descriptor limit
(`RLIMIT_NOFILE`), `pipes[p]` holds the bytes written to pipe `p` and not yet read, and `calls`
is the record of the calls the bridge has made. -/
structure Kernel where
  fds : List (Option Chan)
  nofile : Nat
  pipes : List (List Nat)
  calls : List Call
deriving DecidableEq, Repr

/-- The channel descriptor `fd` refers to, `none` when `fd` is not open. -/
def Kernel.chanOf (k : Kernel) (fd : Nat) : Option Chan := k.fds.getD fd none

/-- The bytes queued in pipe `p`. -/
def Kernel.pipeBytes (k : Kernel) (p : Nat) : List Nat := k.pipes.getD p []

/-- Replace the queue of pipe `p`. -/
def Kernel.setPipe (k : Kernel) (p : Nat) (q : List Nat) : Kernel :=
  { k with pipes := k.pipes.set p q }

/-- Append a call to the record. -/
def Kernel.log (k : Kernel) (c : Call) : Kernel :=
  { k with calls := k.calls ++ [c] }

/-- Some open descriptor still refers to the write end of pipe `p`. -/
def Kernel.hasWriter (k : Kernel) (p : Nat) : Bool :=
  k.fds.any (fun c => decide (c = some (Chan.pipeWrite p)))

/-- The lowest descriptor number that is not open. -/
def lowestFree : List (Option Chan) → Nat
  | [] => 0
  | none :: _ => 0
  | some _ :: rest => lowestFree rest + 1

/-- Make descriptor `fd` refer to `c`, growing the table when `fd` lies beyond its end. -/
def setFd (fds : List (Option Chan)) (fd : Nat) (c : Option Chan) : List (Option Chan) :=
  if fd < fds.length then fds.set fd c
  else fds ++ List.replicate (fd - fds.length) none ++ [c]

/-- The system call `pipe(2)`: a new pipe whose read end and write end get the two lowest free
descriptors.  When they do not fit under the descriptor limit the call fails (`EMFILE`) and
changes nothing. -/
def Kernel.pipe (k : Kernel) : Option (Nat × Nat) × Kernel :=
  let rd := lowestFree k.fds
  let fds1 := setFd k.fds rd (some (Chan.pipeRead k.pipes.length))
  let wr := lowestFree fds1
  if wr < k.nofile then
    (some (rd, wr),
      { k with fds := setFd fds1 wr (some (Chan.pipeWrite k.pipes.length)),
               pipes := k.pipes ++ [[]] })
  else (none, k)

/-- The system call `dup2(2)`: descriptor `newfd` becomes a copy of `oldfd`, silently closing
what `newfd` referred to.  Fails (`EBADF`) without effect when `oldfd` is not open or `newfd` is
out of range; does nothing when the two are equal. -/
def Kernel.dup2 (k : Kernel) (oldfd newfd : Nat) : Kernel :=
  match k.chanOf oldfd with
  | none => k
  | some c =>
    if newfd < k.nofile then { k with fds := setFd k.fds newfd (some c) } else k

/-- The system call `write(2)`: on the write end of a pipe the bytes are appended to the
queue of the pipe; on `/dev/null` they are discarded; otherwise the call fails (`EBADF`). -/
def Kernel.write (k : Kernel) (fd : Nat) (bytes : List Nat) : Kernel :=
  match k.chanOf fd with
  | some (Chan.pipeWrite p) => k.setPipe p (k.pipeBytes p ++ bytes)
  | _ => k

/-- The system call `close(2)`. -/
def Kernel.close (k : Kernel) (fd : Nat) : Kernel :=
  if fd < k.fds.length then { k with fds := k.fds.set fd none } else k

/-! ## C library -/

/-- Descriptor number of standard input. -/
def STDIN_FILENO : Nat := 0

/-- Descriptor number of standard output. -/
def STDOUT_FILENO : Nat := 1

/-- A stdio stream: the descriptor it wraps, the mode it was opened in, and the bytes accepted
by the stream that have not been written to the descriptor yet. -/
structure FILE where
  fd : Nat
  mode : Mode
  buf : List Nat
deriving DecidableEq, Repr

/-- The bytes of the NUL-terminated string stored at the start of the array `mem`: everything
before the first NUL.  This is what `%s`, `strlen` and `NewStringUTF` see of a `char` array. -/
def cstr (mem : List Nat) : List Nat := mem.takeWhile (fun c => decide (c ≠ 0))

/-- The library function `strlen`. -/
def strlen (mem : List Nat) : Nat := (cstr mem).length

/-- The call `pipe(pipefd)` as the bridge makes it: on success the two descriptors are stored
in the array, on failure the array keeps its contents.  The return value is not looked at. -/
def pipe (k : Kernel) (pipefd : Nat × Nat) : (Nat × Nat) × Kernel :=
  match k.pipe with
  | (some fds, k1) => (fds, k1.log (Call.pipe (some fds)))
  | (none, k1) => (pipefd, k1.log (Call.pipe none))

/-- The call `dup2(oldfd, newfd)` as the bridge makes it; the return value is not looked at. -/
def dup2 (k : Kernel) (oldfd newfd : Nat) : Kernel :=
  (k.dup2 oldfd newfd).log (Call.dup2 oldfd newfd)

/-- Whether a stream of mode `m` may be opened on channel `c`. -/
def modeFits (c : Chan) (m : Mode) : Bool :=
  match c, m with
  | Chan.devNull, _ => true
  | Chan.pipeRead _, Mode.r => true
  | Chan.pipeWrite _, Mode.w => true
  | _, _ => false

/-- The library function `fdopen`: a fresh stream with an empty buffer on an open descriptor
whose access mode fits, `NULL` (`none`) otherwise. -/
def fdopen (k : Kernel) (fd : Nat) (mode : Mode) : Option FILE × Kernel :=
  let k1 := k.log (Call.fdopen fd mode)
  match k.chanOf fd with
  | some c =>
    if modeFits c mode then (some { fd := fd, mode := mode, buf := [] }, k1) else (none, k1)
  | none => (none, k1)

/-- The statement `std::thread([]() { stockfish_main(); }).detach()`: one engine thread is
started.  What the engine then does is not part of the bridge. -/
def thread (k : Kernel) : Kernel := k.log Call.thread

/-- The call `fprintf(f, "%s\n", cmd)`: the string at `cmd` and one `'\n'` go into the buffer
of the stream. -/
def fprintf (f : FILE) (cmd : List Nat) : FILE :=
  { f with buf := f.buf ++ cstr cmd ++ [10] }

/-- The library function `fflush`: the buffered bytes are written to the descriptor and the
buffer is emptied.  The library may hand the bytes to the kernel in several pieces; they are
recorded as one `write`. -/
def fflush (f : FILE) (k : Kernel) : FILE × Kernel :=
  if f.buf = [] then (f, k)
  else ({ f with buf := [] }, (k.write f.fd f.buf).log (Call.write f.fd f.buf))

/-- The bytes `fgets` stores when `room` bytes fit and `pending` is what the stream holds: it
copies byte after byte and stops after a `'\n'`, when the room is used up, or when the pending
bytes run out. -/
def scanLine : Nat → List Nat → List Nat
  | 0, _ => []
  | _ + 1, [] => []
  | room + 1, c :: cs => if c = 10 then [c] else c :: scanLine room cs

/-- Outcome of a call of `fgets`. -/
inductive Fgets where
  | blocks
  | null (k : Kernel)
  | line (data : List Nat) (k : Kernel)
deriving DecidableEq, Repr

/-- The library function `fgets(line, n, f)`.
It stores at most `n - 1` bytes, ending after the first `'\n'`, and a terminating NUL:
`Fgets.line data k` stands for the array contents `data ++ [0]`.  When the pending bytes run
out before that, the call waits while a write end of the pipe is open (`Fgets.blocks`); at end
of file it returns what it has, or `NULL` (`Fgets.null`) when it has nothing.  On a descriptor
that is not the read end of a pipe nothing can be read (`/dev/null`: end of file; otherwise
`EBADF`) and the result is `NULL`.  The bytes are taken from the pipe exactly as far as they
are stored; the call is recorded as one `read`. -/
def fgets (n : Nat) (f : FILE) (k : Kernel) : Fgets :=
  match k.chanOf f.fd with
  | some (Chan.pipeRead p) =>
    let pending := k.pipeBytes p
    let data := scanLine (n - 1) pending
    let k1 := (k.setPipe p (pending.drop data.length)).log (Call.read f.fd)
    if data.length = n - 1 ∨ data.getLast? = some 10 then Fgets.line data k1
    else if k.hasWriter p then Fgets.blocks
    else if data = [] then Fgets.null (k.log (Call.read f.fd))
    else Fgets.line data k1
  | _ => Fgets.null (k.log (Call.read f.fd))

/-! ## The bridge -/

/-- The globals of `bridge.cpp` together with the kernel state of the process. -/
structure State where
  input_pipe : Nat × Nat
  output_pipe : Nat × Nat
  stockfish_out : Option FILE
  stockfish_in : Option FILE
  k : Kernel
deriving DecidableEq, Repr

/-- The JNI function `startEngine`. -/
def startEngine (st : State) : State :=
  let p1 := pipe st.k st.input_pipe
  let input_pipe := p1.1
  let p2 := pipe p1.2 st.output_pipe
  let output_pipe := p2.1
  let k := dup2 p2.2 input_pipe.1 STDIN_FILENO
  let k := dup2 k output_pipe.2 STDOUT_FILENO
  let f1 := fdopen k input_pipe.2 Mode.w
  let f2 := fdopen f1.2 output_pipe.1 Mode.r
  { input_pipe := input_pipe
    output_pipe := output_pipe
    stockfish_out := f2.1
    stockfish_in := f1.1
    k := thread f2.2 }

/-- The JNI function `sendCommand`; `cmd` is the array returned by `GetStringUTFChars`. -/
def sendCommand (st : State) (cmd : List Nat) : State :=
  match st.stockfish_in with
  | some f =>
    let fl := fflush (fprintf f cmd) st.k
    { st with stockfish_in := some fl.1, k := fl.2 }
  | none => st

/-- The statements of `readOutput` between `fgets` and `NewStringUTF`:
`len = strlen(line); if (len > 0 && line[len - 1] == '\n') line[len - 1] = '\0';`
acting on the array `line`. -/
def stripNewline (line : List Nat) : List Nat :=
  let len := strlen line
  if len > 0 ∧ line.getD (len - 1) 0 = 10 then line.set (len - 1) 0 else line

/-- The JNI function `readOutput`.  The result is `none` when the call waits inside `fgets`;
otherwise it is the string handed to `NewStringUTF` and the state after the call.  The stream
is only read when `stockfish_out` is not null. -/
def readOutput (st : State) : Option (List Nat × State) :=
  match st.stockfish_out with
  | none => some ([], st)
  | some f =>
    match fgets 1024 f st.k with
    | Fgets.blocks => none
    | Fgets.null k => some ([], { st with k := k })
    | Fgets.line data k => some (cstr (stripNewline (data ++ [0])), { st with k := k })

/-! ## Environment and drivers -/

/-- The engine writes `bytes` to its standard output. -/
def engineWrite (bytes : List Nat) (st : State) : State :=
  { st with k := st.k.write STDOUT_FILENO bytes }

/-- Some code of the process closes descriptor `fd`. -/
def closeFd (fd : Nat) (st : State) : State :=
  { st with k := st.k.close fd }

/-- The indicated number of successive `readOutput` calls, collecting the returned strings in
call order; `none` as soon as one of the calls waits. -/
def readN : Nat → State → Option (List (List Nat) × State)
  | 0, st => some ([], st)
  | n + 1, st =>
    match readOutput st with
    | none => none
    | some (out, st1) =>
      match readN n st1 with
      | none => none
      | some (outs, st2) => some (out :: outs, st2)

/-- A call of the bridge made before or after `startEngine`. -/
inductive Op where
  | send (cmd : List Nat)
  | read
deriving DecidableEq, Repr

/-- Run a sequence of `sendCommand` and `readOutput` calls, collecting the strings returned by
the `readOutput` calls. -/
def run : List Op → State → Option (List (List Nat) × State)
  | [], st => some ([], st)
  | Op.send cmd :: ops, st => run ops (sendCommand st cmd)
  | Op.read :: ops, st =>
    match readOutput st with
    | none => none
    | some (out, st1) =>
      match run ops st1 with
      | none => none
      | some (outs, st2) => some (out :: outs, st2)

/-- The state of a freshly started process: the globals zero-initialised, the three standard
descriptors open on `/dev/null`, no pipe. -/
def boot : State :=
  { input_pipe := (0, 0)
    output_pipe := (0, 0)
    stockfish_out := none
    stockfish_in := none
    k := { fds := [some Chan.devNull, some Chan.devNull, some Chan.devNull]
           nofile := 1024
           pipes := []
           calls := [] } }

/-- The bytes of an ASCII string. -/
def ascii (s : String) : List Nat := s.data.map Char.toNat

/-- The writer stream is open on the write end of pipe `p` with nothing left in its buffer:
the condition `startEngine` establishes for `stockfish_in` and every `sendCommand` keeps. -/
def WriterOn (st : State) (p : Nat) : Prop :=
  match st.stockfish_in with
  | some f => f.buf = [] ∧ st.k.chanOf f.fd = some (Chan.pipeWrite p) ∧ p < st.k.pipes.length
  | none => False

/-- The reader stream is open on the read end of pipe `p`. -/
def ReaderOn (st : State) (p : Nat) : Prop :=
  match st.stockfish_out with
  | some f => st.k.chanOf f.fd = some (Chan.pipeRead p) ∧ p < st.k.pipes.length
  | none => False

instance (st : State) (p : Nat) : Decidable (WriterOn st p) := by
  unfold WriterOn; cases st.stockfish_in <;> infer_instance

instance (st : State) (p : Nat) : Decidable (ReaderOn st p) := by
  unfold ReaderOn; cases st.stockfish_out <;> infer_instance

/-- The state `st1` is `st` with at most the queue of pipe `p` and the call record changed: the
globals, the descriptor table and every other pipe are the same. -/
def OnlyPipe (st st1 : State) (p : Nat) : Prop :=
  st1.input_pipe = st.input_pipe ∧ st1.output_pipe = st.output_pipe ∧
  st1.stockfish_out = st.stockfish_out ∧ st1.stockfish_in = st.stockfish_in ∧
  st1.k.fds = st.k.fds ∧ st1.k.nofile = st.k.nofile ∧
  st1.k.pipes.length = st.k.pipes.length ∧
  ∀ q, q ≠ p → st1.k.pipeBytes q = st.k.pipeBytes q

/-- A process that has used up its descriptor limit: the three standard descriptors are open
and the limit is three. -/
def exhausted : State :=
  { boot with k := { boot.k with nofile := 3 } }

/-- The bytes the engine writes for the lines `ls`: every line followed by one `'\n'`. -/
def wire : List (List Nat) → List Nat
  | [] => []
  | l :: ls => l ++ 10 :: wire ls

/-- The bridge started in a fresh process, after the engine has written `bytes` to its
standard output.  The input pipe is pipe `0`, the output pipe is pipe `1`. -/
def afterOutput (bytes : List Nat) : State := engineWrite bytes (startEngine boot)

/-- The bridge started in a fresh process, after both descriptors on the write end of the
output pipe, standard output and `output_pipe[1]`, have been closed. -/
def outputClosed : State := closeFd 6 (closeFd STDOUT_FILENO (startEngine boot))

/-- The bytes pending on the output stream `stockfish_out`: the queue of the pipe whose read
end the stream is open on; nothing when there is no such pipe. -/
def outPending (st : State) : List Nat :=
  match st.stockfish_out with
  | none => []
  | some f =>
    match st.k.chanOf f.fd with
    | some (Chan.pipeRead p) => st.k.pipeBytes p
    | _ => []

/-- The output stream `stockfish_out` is at end of file: it is open and no further byte can
arrive on it, because no descriptor is left on the write end of its pipe, or because its
descriptor is not the read end of a pipe at all (a read on it ends at once). -/
def outEof (st : State) : Bool :=
  match st.stockfish_out with
  | none => false
  | some f =>
    match st.k.chanOf f.fd with
    | some (Chan.pipeRead p) => !st.k.hasWriter p
    | _ => true


/-! ## Descriptor table and kernel lemmas -/
theorem getD_set_self {α : Type} (l : List α) (i : Nat) (v d : α) (h : i < l.length) :
    (l.set i v).getD i d = v := by
  simp [List.getD_eq_getElem?_getD, List.getElem?_set, h]

theorem getD_set_other {α : Type} (l : List α) (i j : Nat) (v d : α) (h : i ≠ j) :
    (l.set i v).getD j d = l.getD j d := by
  simp [List.getD_eq_getElem?_getD, List.getElem?_set, h]

theorem getD_setFd_self (fds : List (Option Chan)) (fd : Nat) (c : Option Chan) :
    (setFd fds fd c).getD fd none = c := by
  unfold setFd
  split
  · next h => exact getD_set_self _ _ _ _ h
  · next h =>
    have h1 : fds.length ≤ fd := Nat.le_of_not_lt h
    simp [List.getD_eq_getElem?_getD, List.getElem?_append_right, h1]

theorem getD_setFd_other (fds : List (Option Chan)) (fd i : Nat) (c : Option Chan) (h : fd ≠ i) :
    (setFd fds fd c).getD i none = fds.getD i none := by
  unfold setFd
  split
  · exact getD_set_other _ _ _ _ _ h
  · next h1 =>
    have h1 : fds.length ≤ fd := Nat.le_of_not_lt h1
    simp only [List.getD_eq_getElem?_getD, List.append_assoc]
    by_cases h2 : i < fds.length
    · rw [List.getElem?_append_left h2]
    · have h2 : fds.length ≤ i := Nat.le_of_not_lt h2
      rw [List.getElem?_append_right h2, List.getElem?_eq_none_iff.mpr h2]
      by_cases h3 : i - fds.length < fd - fds.length
      · rw [List.getElem?_append_left (by simpa using h3)]
        simp [List.getElem?_replicate, h3]
      · have h3 : fd - fds.length ≤ i - fds.length := Nat.le_of_not_lt h3
        rw [List.getElem?_append_right (by simpa using h3)]
        have : i - fds.length - (List.replicate (fd - fds.length) (none : Option Chan)).length ≠ 0 := by
          simp; omega
        obtain ⟨m, hm⟩ := Nat.exists_eq_succ_of_ne_zero this
        rw [hm]; simp

theorem lowestFree_free (fds : List (Option Chan)) : fds.getD (lowestFree fds) none = none := by
  induction fds with
  | nil => rfl
  | cons a rest ih =>
    cases a with
    | none => rfl
    | some c => simpa [lowestFree] using ih

theorem lowestFree_least (fds : List (Option Chan)) (i : Nat) (h : fds.getD i none = none) :
    lowestFree fds ≤ i := by
  induction fds generalizing i with
  | nil => simp [lowestFree]
  | cons a rest ih =>
    cases a with
    | none => simp [lowestFree]
    | some c =>
      cases i with
      | zero => simp at h
      | succ j =>
        simp only [lowestFree]
        have := ih j (by simpa using h)
        omega


@[simp] theorem log_fds (k : Kernel) (c : Call) : (k.log c).fds = k.fds := rfl
@[simp] theorem log_nofile (k : Kernel) (c : Call) : (k.log c).nofile = k.nofile := rfl
@[simp] theorem log_pipes (k : Kernel) (c : Call) : (k.log c).pipes = k.pipes := rfl
@[simp] theorem log_calls (k : Kernel) (c : Call) : (k.log c).calls = k.calls ++ [c] := rfl
@[simp] theorem log_chanOf (k : Kernel) (c : Call) (fd : Nat) :
    (k.log c).chanOf fd = k.chanOf fd := rfl
@[simp] theorem log_pipeBytes (k : Kernel) (c : Call) (p : Nat) :
    (k.log c).pipeBytes p = k.pipeBytes p := rfl
@[simp] theorem log_hasWriter (k : Kernel) (c : Call) (p : Nat) :
    (k.log c).hasWriter p = k.hasWriter p := rfl

@[simp] theorem setPipe_fds (k : Kernel) (p : Nat) (q : List Nat) : (k.setPipe p q).fds = k.fds := rfl
@[simp] theorem setPipe_nofile (k : Kernel) (p : Nat) (q : List Nat) :
    (k.setPipe p q).nofile = k.nofile := rfl
@[simp] theorem setPipe_calls (k : Kernel) (p : Nat) (q : List Nat) :
    (k.setPipe p q).calls = k.calls := rfl
@[simp] theorem setPipe_pipes (k : Kernel) (p : Nat) (q : List Nat) :
    (k.setPipe p q).pipes = k.pipes.set p q := rfl
@[simp] theorem setPipe_chanOf (k : Kernel) (p : Nat) (q : List Nat) (fd : Nat) :
    (k.setPipe p q).chanOf fd = k.chanOf fd := rfl
@[simp] theorem setPipe_hasWriter (k : Kernel) (p : Nat) (q : List Nat) (p1 : Nat) :
    (k.setPipe p q).hasWriter p1 = k.hasWriter p1 := rfl

theorem setPipe_pipeBytes_self (k : Kernel) (p : Nat) (q : List Nat) (h : p < k.pipes.length) :
    (k.setPipe p q).pipeBytes p = q := getD_set_self _ _ _ _ h

theorem setPipe_pipeBytes_other (k : Kernel) (p p1 : Nat) (q : List Nat) (h : p ≠ p1) :
    (k.setPipe p q).pipeBytes p1 = k.pipeBytes p1 := getD_set_other _ _ _ _ _ h

/-- What a successful `pipe(2)` leaves behind. -/
theorem kernel_pipe_ok (k k1 : Kernel) (rd wr : Nat) (h : k.pipe = (some (rd, wr), k1)) :
    k.chanOf rd = none ∧ k.chanOf wr = none ∧ rd ≠ wr ∧ wr < k.nofile ∧
    k1.chanOf rd = some (Chan.pipeRead k.pipes.length) ∧
    k1.chanOf wr = some (Chan.pipeWrite k.pipes.length) ∧
    (∀ i, i ≠ rd → i ≠ wr → k1.chanOf i = k.chanOf i) ∧
    k1.pipes = k.pipes ++ [[]] ∧ k1.nofile = k.nofile ∧ k1.calls = k.calls := by
  unfold Kernel.pipe at h
  simp only at h
  split at h
  · next hlt =>
    simp only [Prod.mk.injEq, Option.some.injEq] at h
    obtain ⟨⟨rfl, rfl⟩, rfl⟩ := h
    have hfree1 := lowestFree_free k.fds
    have hfree2 := lowestFree_free (setFd k.fds (lowestFree k.fds) (some (Chan.pipeRead k.pipes.length)))
    generalize lowestFree (setFd k.fds (lowestFree k.fds) (some (Chan.pipeRead k.pipes.length))) = wr
      at hfree2 hlt
    generalize lowestFree k.fds = rd at hfree1 hfree2
    have hne : rd ≠ wr := by
      intro e
      rw [← e, getD_setFd_self] at hfree2
      cases hfree2
    rw [getD_setFd_other _ _ _ _ hne] at hfree2
    refine ⟨hfree1, hfree2, hne, hlt, ?_, ?_, ?_, rfl, rfl, rfl⟩
    · show (setFd _ wr _).getD rd none = _
      rw [getD_setFd_other _ _ _ _ (Ne.symm hne), getD_setFd_self]
    · show (setFd _ wr _).getD wr none = _
      rw [getD_setFd_self]
    · intro i h1 h2
      show (setFd _ wr _).getD i none = _
      rw [getD_setFd_other _ _ _ _ (Ne.symm h2), getD_setFd_other _ _ _ _ (Ne.symm h1)]
      rfl
  · simp at h

theorem kernel_pipe_fail (k k1 : Kernel) (h : k.pipe = (none, k1)) : k1 = k := by
  unfold Kernel.pipe at h
  simp only at h
  split at h
  · simp at h
  · simp only [Prod.mk.injEq, true_and] at h
    exact h.symm

theorem kernel_dup2_chanOf (k : Kernel) (oldfd newfd : Nat) (c : Chan)
    (h : k.chanOf oldfd = some c) (hn : newfd < k.nofile) (i : Nat) :
    (k.dup2 oldfd newfd).chanOf i = if i = newfd then some c else k.chanOf i := by
  unfold Kernel.dup2
  rw [h]
  simp only [hn, if_true]
  split
  · next e => subst e; exact getD_setFd_self _ _ _
  · next e => exact getD_setFd_other _ _ _ _ (Ne.symm e)

theorem kernel_dup2_rest (k : Kernel) (oldfd newfd : Nat) :
    (k.dup2 oldfd newfd).pipes = k.pipes ∧ (k.dup2 oldfd newfd).nofile = k.nofile ∧
    (k.dup2 oldfd newfd).calls = k.calls := by
  unfold Kernel.dup2
  split
  · exact ⟨rfl, rfl, rfl⟩
  · split <;> exact ⟨rfl, rfl, rfl⟩


/-! ## `startEngine` -/

theorem kernel_pipe_log (k : Kernel) (c : Call) :
    (k.log c).pipe = (k.pipe.1, k.pipe.2.log c) := by
  unfold Kernel.pipe
  simp only [log_fds, log_pipes, log_nofile]
  split <;> rfl

theorem pipe_ok (k k1 : Kernel) (arr fds : Nat × Nat) (h : k.pipe = (some fds, k1)) :
    pipe k arr = (fds, k1.log (Call.pipe (some fds))) := by
  unfold pipe; rw [h]

theorem dup2_chanOf (k : Kernel) (oldfd newfd : Nat) (c : Chan)
    (h : k.chanOf oldfd = some c) (hn : newfd < k.nofile) (i : Nat) :
    (dup2 k oldfd newfd).chanOf i = if i = newfd then some c else k.chanOf i := by
  unfold dup2
  rw [log_chanOf]
  exact kernel_dup2_chanOf k oldfd newfd c h hn i

@[simp] theorem dup2_pipes (k : Kernel) (oldfd newfd : Nat) :
    (dup2 k oldfd newfd).pipes = k.pipes := (kernel_dup2_rest k oldfd newfd).1

@[simp] theorem dup2_nofile (k : Kernel) (oldfd newfd : Nat) :
    (dup2 k oldfd newfd).nofile = k.nofile := (kernel_dup2_rest k oldfd newfd).2.1

@[simp] theorem dup2_calls (k : Kernel) (oldfd newfd : Nat) :
    (dup2 k oldfd newfd).calls = k.calls ++ [Call.dup2 oldfd newfd] := by
  unfold dup2
  rw [log_calls, (kernel_dup2_rest k oldfd newfd).2.2]

theorem fdopen_ok (k : Kernel) (fd : Nat) (mode : Mode) (c : Chan)
    (h : k.chanOf fd = some c) (hm : modeFits c mode = true) :
    fdopen k fd mode = (some { fd := fd, mode := mode, buf := [] }, k.log (Call.fdopen fd mode)) := by
  unfold fdopen
  simp only [h, hm, if_true]

@[simp] theorem fdopen_kernel (k : Kernel) (fd : Nat) (mode : Mode) :
    (fdopen k fd mode).2 = k.log (Call.fdopen fd mode) := by
  unfold fdopen
  split
  · split <;> rfl
  · rfl

theorem pipe_snd (k : Kernel) (arr : Nat × Nat) :
    (pipe k arr).2 = k.pipe.2.log (Call.pipe k.pipe.1) := by
  unfold pipe
  split
  · next fds k1 h => rw [h]
  · next k1 h => rw [h]

theorem pipe_fst (k : Kernel) (arr : Nat × Nat) : (pipe k arr).1 = k.pipe.1.getD arr := by
  unfold pipe
  split
  · next fds k1 h => rw [h]; rfl
  · next k1 h => rw [h]; rfl

theorem kernel_pipe_calls (k : Kernel) : k.pipe.2.calls = k.calls := by
  unfold Kernel.pipe
  simp only
  split <;> rfl

/-- The record of calls of `startEngine` has the same shape whatever the calls return: both
`pipe` calls, then both `dup2` calls on the array slots, then both `fdopen` calls, then the
thread. -/
theorem startEngine_calls (st : State) :
    (startEngine st).k.calls = st.k.calls ++
      [Call.pipe st.k.pipe.1, Call.pipe st.k.pipe.2.pipe.1,
       Call.dup2 (startEngine st).input_pipe.1 STDIN_FILENO,
       Call.dup2 (startEngine st).output_pipe.2 STDOUT_FILENO,
       Call.fdopen (startEngine st).input_pipe.2 Mode.w,
       Call.fdopen (startEngine st).output_pipe.1 Mode.r,
       Call.thread] := by
  simp only [startEngine, thread, log_calls, fdopen_kernel, dup2_calls, pipe_snd,
    kernel_pipe_log, kernel_pipe_calls, List.append_assoc, List.cons_append, List.nil_append]

/-- The arrays after `startEngine`: a slot pair is overwritten exactly when its `pipe` call
succeeds. -/
theorem startEngine_arrays (st : State) :
    (startEngine st).input_pipe = st.k.pipe.1.getD st.input_pipe ∧
    (startEngine st).output_pipe = st.k.pipe.2.pipe.1.getD st.output_pipe := by
  simp only [startEngine, pipe_fst, pipe_snd, kernel_pipe_log, and_self]


/-- The state `startEngine` produces when both `pipe` calls succeed and the standard
descriptors are open. -/
theorem startEngine_ok (st : State) (k1 k2 : Kernel) (r1 w1 r2 w2 : Nat)
    (h0 : st.k.chanOf STDIN_FILENO ≠ none) (h1 : st.k.chanOf STDOUT_FILENO ≠ none)
    (hp1 : st.k.pipe = (some (r1, w1), k1)) (hp2 : k1.pipe = (some (r2, w2), k2)) :
    (startEngine st).input_pipe = (r1, w1) ∧ (startEngine st).output_pipe = (r2, w2) ∧
    (startEngine st).stockfish_in = some { fd := w1, mode := Mode.w, buf := [] } ∧
    (startEngine st).stockfish_out = some { fd := r2, mode := Mode.r, buf := [] } ∧
    (startEngine st).k.pipes = st.k.pipes ++ [[], []] ∧
    (∀ i, (startEngine st).k.chanOf i =
      if i = STDOUT_FILENO then some (Chan.pipeWrite (st.k.pipes.length + 1))
      else if i = STDIN_FILENO then some (Chan.pipeRead st.k.pipes.length)
      else k2.chanOf i) ∧
    r1 ≠ STDIN_FILENO ∧ r1 ≠ STDOUT_FILENO ∧ w1 ≠ STDIN_FILENO ∧ w1 ≠ STDOUT_FILENO ∧
    r2 ≠ STDIN_FILENO ∧ r2 ≠ STDOUT_FILENO ∧ w2 ≠ STDIN_FILENO ∧ w2 ≠ STDOUT_FILENO ∧
    k2.chanOf r1 = some (Chan.pipeRead st.k.pipes.length) ∧
    k2.chanOf w1 = some (Chan.pipeWrite st.k.pipes.length) ∧
    k2.chanOf r2 = some (Chan.pipeRead (st.k.pipes.length + 1)) ∧
    k2.chanOf w2 = some (Chan.pipeWrite (st.k.pipes.length + 1)) := by
  obtain ⟨a1, a2, a3, a4, a5, a6, a7, a8, a9, _⟩ := kernel_pipe_ok st.k k1 r1 w1 hp1
  obtain ⟨b1, b2, b3, b4, b5, b6, b7, b8, b9, _⟩ := kernel_pipe_ok k1 k2 r2 w2 hp2
  have r1n0 : r1 ≠ STDIN_FILENO := fun e => h0 (e ▸ a1)
  have r1n1 : r1 ≠ STDOUT_FILENO := fun e => h1 (e ▸ a1)
  have w1n0 : w1 ≠ STDIN_FILENO := fun e => h0 (e ▸ a2)
  have w1n1 : w1 ≠ STDOUT_FILENO := fun e => h1 (e ▸ a2)
  have c0 : k1.chanOf STDIN_FILENO ≠ none := by
    rw [a7 _ (Ne.symm r1n0) (Ne.symm w1n0)]; exact h0
  have c1 : k1.chanOf STDOUT_FILENO ≠ none := by
    rw [a7 _ (Ne.symm r1n1) (Ne.symm w1n1)]; exact h1
  have r2n0 : r2 ≠ STDIN_FILENO := fun e => c0 (e ▸ b1)
  have r2n1 : r2 ≠ STDOUT_FILENO := fun e => c1 (e ▸ b1)
  have w2n0 : w2 ≠ STDIN_FILENO := fun e => c0 (e ▸ b2)
  have w2n1 : w2 ≠ STDOUT_FILENO := fun e => c1 (e ▸ b2)
  have r2r1 : r1 ≠ r2 := fun e => by rw [← e, a5] at b1; cases b1
  have r2w1 : w1 ≠ r2 := fun e => by rw [← e, a6] at b1; cases b1
  have w2r1 : r1 ≠ w2 := fun e => by rw [← e, a5] at b2; cases b2
  have w2w1 : w1 ≠ w2 := fun e => by rw [← e, a6] at b2; cases b2
  have d1 : k2.chanOf r1 = some (Chan.pipeRead st.k.pipes.length) := by
    rw [b7 _ r2r1 w2r1]; exact a5
  have d2 : k2.chanOf w1 = some (Chan.pipeWrite st.k.pipes.length) := by
    rw [b7 _ r2w1 w2w1]; exact a6
  have hlen : k1.pipes.length = st.k.pipes.length + 1 := by rw [a8]; simp
  rw [hlen] at b5 b6
  have two : 2 ≤ w1 := by
    unfold STDIN_FILENO at w1n0; unfold STDOUT_FILENO at w1n1; omega
  have e1 := pipe_ok st.k k1 st.input_pipe (r1, w1) hp1
  have e2 : pipe (k1.log (Call.pipe (some (r1, w1)))) st.output_pipe =
      ((r2, w2), (k2.log (Call.pipe (some (r1, w1)))).log (Call.pipe (some (r2, w2)))) := by
    apply pipe_ok
    rw [kernel_pipe_log, hp2]
  have n0 : STDIN_FILENO < k2.nofile := by rw [b9, a9]; unfold STDIN_FILENO; omega
  have n1 : STDOUT_FILENO < k2.nofile := by rw [b9, a9]; unfold STDOUT_FILENO; omega
  -- the kernel after the two `dup2` calls
  have hchan : ∀ i, (dup2 (dup2 ((k2.log (Call.pipe (some (r1, w1)))).log
        (Call.pipe (some (r2, w2)))) r1 STDIN_FILENO) w2 STDOUT_FILENO).chanOf i =
      if i = STDOUT_FILENO then some (Chan.pipeWrite (st.k.pipes.length + 1))
      else if i = STDIN_FILENO then some (Chan.pipeRead st.k.pipes.length)
      else k2.chanOf i := by
    intro i
    rw [dup2_chanOf _ w2 STDOUT_FILENO (Chan.pipeWrite (st.k.pipes.length + 1)) _ (by simpa using n1)]
    · rw [dup2_chanOf _ r1 STDIN_FILENO (Chan.pipeRead st.k.pipes.length) (by simpa using d1)
        (by simpa using n0)]
      simp
    · rw [dup2_chanOf _ r1 STDIN_FILENO (Chan.pipeRead st.k.pipes.length) (by simpa using d1)
        (by simpa using n0)]
      simp [w2n0, b6]
  have f1 := fdopen_ok _ w1 Mode.w (Chan.pipeWrite st.k.pipes.length)
    (by rw [hchan w1]; simp [w1n0, w1n1, d2]) rfl
  have f2 := fdopen_ok ((dup2 (dup2 ((k2.log (Call.pipe (some (r1, w1)))).log
        (Call.pipe (some (r2, w2)))) r1 STDIN_FILENO) w2 STDOUT_FILENO).log (Call.fdopen w1 Mode.w))
    r2 Mode.r (Chan.pipeRead (st.k.pipes.length + 1))
    (by rw [log_chanOf, hchan r2]; simp [r2n0, r2n1, b5]) rfl
  refine ⟨?_, ?_, ?_, ?_, ?_, ?_, r1n0, r1n1, w1n0, w1n1, r2n0, r2n1, w2n0, w2n1, d1, d2, b5, b6⟩
  · simp only [startEngine, e1]
  · simp only [startEngine, e1, e2]
  · simp only [startEngine, e1, e2, f1]
  · simp only [startEngine, e1, e2, f1, f2]
  · simp only [startEngine, e1, e2, f1, f2, thread, log_pipes, dup2_pipes, b8, a8,
      List.append_assoc, List.cons_append, List.nil_append]
  · intro i
    simp only [startEngine, e1, e2, f1, f2, thread, log_chanOf]
    exact hchan i


/-! ## Strings and `fgets` -/

theorem cstr_nul_free (mem : List Nat) : 0 ∉ cstr mem := by
  unfold cstr
  intro h
  have := List.mem_takeWhile_imp h
  simp at this

theorem cstr_append_nul (s t : List Nat) (hs : 0 ∉ s) : cstr (s ++ 0 :: t) = s := by
  unfold cstr
  induction s with
  | nil => simp
  | cons a s ih =>
    have ha : a ≠ 0 := fun e => hs (by simp [e])
    have hs1 : 0 ∉ s := fun e => hs (List.mem_cons_of_mem _ e)
    simpa [List.takeWhile_cons, ha] using ih hs1

/-- Every array that ends in NUL splits at its first NUL. -/
theorem split_at_nul (data : List Nat) : ∃ t, data ++ [0] = cstr data ++ 0 :: t := by
  induction data with
  | nil => exact ⟨[], rfl⟩
  | cons a s ih =>
    obtain ⟨t, ht⟩ := ih
    by_cases ha : a = 0
    · subst ha
      exact ⟨s ++ [0], by simp [cstr]⟩
    · refine ⟨t, ?_⟩
      have : cstr (a :: s) = a :: cstr s := by simp [cstr, List.takeWhile_cons, ha]
      rw [this, List.cons_append, ht, List.cons_append]

/-- The string `readOutput` hands to `NewStringUTF`, for an array whose first NUL comes after
the NUL-free bytes `c`: `c` without its last byte when that byte is `'\n'`, else `c`. -/
theorem cstr_stripNewline (c t : List Nat) (hc : 0 ∉ c) :
    cstr (stripNewline (c ++ 0 :: t)) = if c.getLast? = some 10 then c.dropLast else c := by
  unfold stripNewline strlen
  simp only [cstr_append_nul c t hc]
  rcases List.eq_nil_or_concat c with rfl | ⟨c1, x, h⟩
  · simp [cstr]
  · rw [List.concat_eq_append] at h
    subst h
    have hc1 : 0 ∉ c1 := fun e => hc (by simp [e])
    have hlen : (c1 ++ [x]).length - 1 = c1.length := by simp
    have hget : (c1 ++ [x] ++ 0 :: t).getD c1.length 0 = x := by
      rw [List.append_assoc, List.getD_eq_getElem?_getD,
        List.getElem?_append_right (Nat.le_refl _)]
      simp
    have hset : (c1 ++ [x] ++ 0 :: t).set c1.length 0 = c1 ++ 0 :: 0 :: t := by
      rw [List.append_assoc, List.set_append_right _ _ (Nat.le_refl _)]
      simp
    rw [hlen, hget, hset]
    by_cases hx : x = 10
    · subst hx
      simp [cstr_append_nul c1 _ hc1]
    · have : cstr (c1 ++ [x] ++ 0 :: t) = c1 ++ [x] := cstr_append_nul _ _ hc
      rw [if_neg (by simp [hx]), this]
      simp [hx]

theorem scanLine_length_le (room : Nat) (l : List Nat) : (scanLine room l).length ≤ room := by
  induction room generalizing l with
  | zero => simp [scanLine]
  | succ n ih =>
    cases l with
    | nil => simp [scanLine]
    | cons c cs =>
      simp only [scanLine]
      split
      · simp
      · simp only [List.length_cons]
        have := ih cs
        omega

theorem scanLine_append_nl (room : Nat) (l rest : List Nat) (h10 : 10 ∉ l)
    (hlen : l.length < room) : scanLine room (l ++ 10 :: rest) = l ++ [10] := by
  induction l generalizing room with
  | nil =>
    cases room with
    | zero => simp at hlen
    | succ n => simp [scanLine]
  | cons a s ih =>
    cases room with
    | zero => simp at hlen
    | succ n =>
      have ha : a ≠ 10 := fun e => h10 (by simp [e])
      have hs : 10 ∉ s := fun e => h10 (List.mem_cons_of_mem _ e)
      rw [List.cons_append]
      simp only [scanLine, ha, if_false]
      rw [ih n hs (by simpa using hlen)]
      rfl

theorem scanLine_long (room : Nat) (l rest : List Nat) (h10 : 10 ∉ l)
    (hlen : room ≤ l.length) : scanLine room (l ++ rest) = l.take room := by
  induction l generalizing room with
  | nil =>
    have : room = 0 := by simpa using hlen
    subst this
    simp [scanLine]
  | cons a s ih =>
    cases room with
    | zero => simp [scanLine]
    | succ n =>
      have ha : a ≠ 10 := fun e => h10 (by simp [e])
      have hs : 10 ∉ s := fun e => h10 (List.mem_cons_of_mem _ e)
      rw [List.cons_append]
      simp only [scanLine, ha, if_false, List.take_succ_cons]
      rw [ih n hs (by simpa using hlen)]

theorem scanLine_eq_nil (room : Nat) (l : List Nat) :
    scanLine room l = [] ↔ room = 0 ∨ l = [] := by
  cases room with
  | zero => simp [scanLine]
  | succ n =>
    cases l with
    | nil => simp [scanLine]
    | cons c cs =>
      simp only [scanLine]
      split <;> simp

theorem scanLine_head (room : Nat) (l : List Nat) (h : 0 < room) :
    (scanLine room l).head? = l.head? := by
  cases room with
  | zero => simp at h
  | succ n =>
    cases l with
    | nil => simp [scanLine]
    | cons c cs =>
      simp only [scanLine]
      split <;> simp_all

/-- A `'\n'` can only be the last byte `fgets` stores. -/
theorem scanLine_inner (room : Nat) (l : List Nat) : 10 ∉ (scanLine room l).dropLast := by
  induction room generalizing l with
  | zero => simp [scanLine]
  | succ n ih =>
    cases l with
    | nil => simp [scanLine]
    | cons c cs =>
      simp only [scanLine]
      split
      · simp
      · next hc =>
        cases h : scanLine n cs with
        | nil => simp
        | cons d ds =>
          rw [List.dropLast_cons₂]
          intro hm
          rcases List.mem_cons.mp hm with e | e
          · exact hc e.symm
          · exact ih cs (h ▸ e)


/-! ## `readOutput`, one call -/

theorem readerOn_iff (st : State) (p : Nat) :
    ReaderOn st p ↔ ∃ f, st.stockfish_out = some f ∧
      st.k.chanOf f.fd = some (Chan.pipeRead p) ∧ p < st.k.pipes.length := by
  unfold ReaderOn
  cases st.stockfish_out with
  | none => simp
  | some f => simp

theorem writerOn_iff (st : State) (p : Nat) :
    WriterOn st p ↔ ∃ f, st.stockfish_in = some f ∧ f.buf = [] ∧
      st.k.chanOf f.fd = some (Chan.pipeWrite p) ∧ p < st.k.pipes.length := by
  unfold WriterOn
  cases st.stockfish_in with
  | none => simp
  | some f => simp

theorem onlyPipe_refl (st : State) (p : Nat) : OnlyPipe st st p :=
  ⟨rfl, rfl, rfl, rfl, rfl, rfl, rfl, fun _ _ => rfl⟩

theorem onlyPipe_trans (st st1 st2 : State) (p : Nat) (h1 : OnlyPipe st st1 p)
    (h2 : OnlyPipe st1 st2 p) : OnlyPipe st st2 p := by
  obtain ⟨a1, a2, a3, a4, a5, a6, a7, a8⟩ := h1
  obtain ⟨b1, b2, b3, b4, b5, b6, b7, b8⟩ := h2
  exact ⟨b1.trans a1, b2.trans a2, b3.trans a3, b4.trans a4, b5.trans a5, b6.trans a6,
    b7.trans a7, fun q hq => (b8 q hq).trans (a8 q hq)⟩

theorem onlyPipe_readerOn (st st1 : State) (p q : Nat) (h : OnlyPipe st st1 p)
    (hr : ReaderOn st q) : ReaderOn st1 q := by
  obtain ⟨_, _, a3, _, a5, _, a7, _⟩ := h
  rw [readerOn_iff] at hr ⊢
  obtain ⟨f, h1, h2, h3⟩ := hr
  refine ⟨f, a3.trans h1, ?_, a7 ▸ h3⟩
  unfold Kernel.chanOf at h2 ⊢
  rw [a5]; exact h2

theorem onlyPipe_hasWriter (st st1 : State) (p q : Nat) (h : OnlyPipe st st1 p) :
    st1.k.hasWriter q = st.k.hasWriter q := by
  unfold Kernel.hasWriter
  rw [h.2.2.2.2.1]

/-- The state after a read that leaves `q` in pipe `p`. -/
theorem onlyPipe_read (st : State) (p : Nat) (q : List Nat) (c : Call) :
    OnlyPipe st { st with k := (st.k.setPipe p q).log c } p :=
  ⟨rfl, rfl, rfl, rfl, rfl, rfl, by simp, fun q1 hq => by
    rw [log_pipeBytes]; exact setPipe_pipeBytes_other _ _ _ _ (Ne.symm hq)⟩

/-- One `readOutput` call when `fgets` finds a full line or fills its buffer. -/
theorem readOutput_data (st : State) (p : Nat) (hr : ReaderOn st p)
    (hd : (scanLine 1023 (st.k.pipeBytes p)).length = 1023 ∨
      (scanLine 1023 (st.k.pipeBytes p)).getLast? = some 10) :
    ∃ st1, readOutput st =
        some (cstr (stripNewline (scanLine 1023 (st.k.pipeBytes p) ++ [0])), st1) ∧
      st1.k.pipeBytes p = (st.k.pipeBytes p).drop (scanLine 1023 (st.k.pipeBytes p)).length ∧
      OnlyPipe st st1 p := by
  obtain ⟨f, h1, h2, h3⟩ := (readerOn_iff st p).mp hr
  refine ⟨{ st with k := (st.k.setPipe p ((st.k.pipeBytes p).drop
    (scanLine 1023 (st.k.pipeBytes p)).length)).log (Call.read f.fd) }, ?_, ?_, ?_⟩
  · unfold readOutput
    simp only [h1, fgets, h2]
    rw [if_pos (by simpa using hd)]
  · rw [log_pipeBytes]; exact setPipe_pipeBytes_self _ _ _ h3
  · exact onlyPipe_read _ _ _ _

/-- One `readOutput` call at end of file with data left that has no `'\n'` and does not fill
the buffer, or with no data left. -/
theorem readOutput_eof (st : State) (p : Nat) (hr : ReaderOn st p)
    (hd : ¬ ((scanLine 1023 (st.k.pipeBytes p)).length = 1023 ∨
      (scanLine 1023 (st.k.pipeBytes p)).getLast? = some 10))
    (hw : st.k.hasWriter p = false) :
    ∃ st1, readOutput st =
        some (if scanLine 1023 (st.k.pipeBytes p) = [] then []
          else cstr (stripNewline (scanLine 1023 (st.k.pipeBytes p) ++ [0])), st1) ∧
      st1.k.pipeBytes p = (st.k.pipeBytes p).drop (scanLine 1023 (st.k.pipeBytes p)).length ∧
      OnlyPipe st st1 p := by
  obtain ⟨f, h1, h2, h3⟩ := (readerOn_iff st p).mp hr
  by_cases he : scanLine 1023 (st.k.pipeBytes p) = []
  · refine ⟨{ st with k := st.k.log (Call.read f.fd) }, ?_, ?_, ?_⟩
    · unfold readOutput
      simp only [h1, fgets, h2]
      rw [if_neg (by simpa using hd)]
      simp [hw, he]
    · simp [he]
    · exact ⟨rfl, rfl, rfl, rfl, rfl, rfl, rfl, fun _ _ => rfl⟩
  · refine ⟨{ st with k := (st.k.setPipe p ((st.k.pipeBytes p).drop
      (scanLine 1023 (st.k.pipeBytes p)).length)).log (Call.read f.fd) }, ?_, ?_, ?_⟩
    · unfold readOutput
      simp only [h1, fgets, h2]
      rw [if_neg (by simpa using hd)]
      simp [hw, he]
    · rw [log_pipeBytes]; exact setPipe_pipeBytes_self _ _ _ h3
    · exact onlyPipe_read _ _ _ _

/-- One `readOutput` call that has to wait for the engine. -/
theorem readOutput_blocks (st : State) (p : Nat) (hr : ReaderOn st p)
    (hd : ¬ ((scanLine 1023 (st.k.pipeBytes p)).length = 1023 ∨
      (scanLine 1023 (st.k.pipeBytes p)).getLast? = some 10))
    (hw : st.k.hasWriter p = true) : readOutput st = none := by
  obtain ⟨f, h1, h2, h3⟩ := (readerOn_iff st p).mp hr
  unfold readOutput
  simp only [h1, fgets, h2]
  rw [if_neg (by simpa using hd)]
  simp [hw]


/-- The call `readOutput` waits exactly when the reader stream is open on the read end of a
pipe that still has a write end open, and the pending bytes neither contain a `'\n'` among the
first 1023 nor number 1023: in every other state it returns. -/
theorem readOutput_waits_iff (st : State) :
    readOutput st = none ↔ ∃ f p, st.stockfish_out = some f ∧
      st.k.chanOf f.fd = some (Chan.pipeRead p) ∧ st.k.hasWriter p = true ∧
      ¬ ((scanLine 1023 (st.k.pipeBytes p)).length = 1023 ∨
        (scanLine 1023 (st.k.pipeBytes p)).getLast? = some 10) := by
  unfold readOutput
  cases hso : st.stockfish_out with
  | none => simp
  | some f =>
    cases hch : st.k.chanOf f.fd with
    | none => simp [fgets, hch]
    | some c =>
      cases c with
      | devNull => simp [fgets, hch]
      | pipeWrite p => simp [fgets, hch]
      | pipeRead p =>
        simp only [fgets, hch]
        constructor
        · intro h
          refine ⟨f, p, rfl, hch, ?_⟩
          split_ifs at h with h1 h2 h3
          exact ⟨h2, h1⟩
        · rintro ⟨f1, p1, e1, e2, e3, e4⟩
          cases e1
          rw [hch] at e2
          cases e2
          rw [if_neg e4, if_pos e3]


/-! ## `sendCommand` -/

/-- The state after `sendCommand` when the writer stream is open on a pipe. -/
theorem sendCommand_state (st : State) (f : FILE) (p : Nat) (cmd : List Nat)
    (h1 : st.stockfish_in = some f) (h2 : f.buf = [])
    (h3 : st.k.chanOf f.fd = some (Chan.pipeWrite p)) :
    sendCommand st cmd = { st with
      stockfish_in := some f
      k := (st.k.setPipe p (st.k.pipeBytes p ++ (cstr cmd ++ [10]))).log
        (Call.write f.fd (cstr cmd ++ [10])) } := by
  unfold sendCommand
  simp only [h1, fprintf, fflush, h2, List.nil_append]
  rw [if_neg (by simp)]
  simp only [Kernel.write, h3]
  cases f
  simp_all

/-- C1. For every command, of any length and any content: `cmd` is the NUL-terminated array
`GetStringUTFChars` returns and the command string `s` is `cstr cmd`, the bytes in front of
the terminating NUL.  When the writer stream `stockfish_in` is open on the input pipe `p`,
`sendCommand` puts exactly the bytes of `s` followed by one `'\n'` behind the bytes already
pending in that pipe; it touches no other pipe, records the write of exactly these bytes and
nothing else, and leaves the globals and the descriptor table as they were, the writer stream
again with an empty buffer.  In particular every byte string `s` without NUL, handed over as
the array `s` followed by NUL, arrives as `s` followed by `'\n'`. -/
theorem sendCommand_appends_line (st : State) (p : Nat) (cmd : List Nat)
    (hw : WriterOn st p) :
    (sendCommand st cmd).k.pipeBytes p = st.k.pipeBytes p ++ (cstr cmd ++ [10]) ∧
    OnlyPipe st (sendCommand st cmd) p ∧
    (∃ fd, (sendCommand st cmd).k.calls = st.k.calls ++ [Call.write fd (cstr cmd ++ [10])]) ∧
    WriterOn (sendCommand st cmd) p ∧
    (∀ s, 0 ∉ s → cmd = s ++ [0] →
      (sendCommand st cmd).k.pipeBytes p = st.k.pipeBytes p ++ (s ++ [10])) := by
  obtain ⟨f, h1, h2, h3, h4⟩ := (writerOn_iff st p).mp hw
  rw [sendCommand_state st f p cmd h1 h2 h3]
  refine ⟨?_, ?_, ⟨f.fd, rfl⟩, ?_, ?_⟩
  · exact setPipe_pipeBytes_self _ _ _ h4
  · exact ⟨rfl, rfl, rfl, h1.symm, rfl, rfl, by simp, fun q hq => by
      rw [log_pipeBytes]; exact setPipe_pipeBytes_other _ _ _ _ (Ne.symm hq)⟩
  · rw [writerOn_iff]
    exact ⟨f, rfl, h2, h3, by simpa using h4⟩
  · intro s hs hcmd
    rw [hcmd, cstr_append_nul s [] hs]
    exact setPipe_pipeBytes_self _ _ _ h4

/-- Witness for C1: the command `uci` sent right after `startEngine` in a fresh process, and
then the command `isready`; the input pipe holds the two lines in the order sent. -/
theorem sendCommand_appends_line_witness :
    WriterOn (sendCommand (startEngine boot) (ascii "uci" ++ [0])) 0 ∧
    (sendCommand (startEngine boot) (ascii "uci" ++ [0])).k.pipeBytes 0 = ascii "uci\n" ∧
    (sendCommand (sendCommand (startEngine boot) (ascii "uci" ++ [0]))
      (ascii "isready" ++ [0])).k.pipeBytes 0 = ascii "uci\n" ++ ascii "isready\n" :=
  ⟨by decide, by decide,
    (sendCommand_appends_line (sendCommand (startEngine boot) (ascii "uci" ++ [0])) 0
      (ascii "isready" ++ [0]) (by decide)).1⟩

/-! ## Before `startEngine` -/

/-- C3. In the state before `startEngine` (both `stockfish_in` and `stockfish_out` null), for
every command string `sendCommand` leaves the whole state unchanged (nothing is written, no
call is made), `readOutput` returns the empty string and leaves the whole state unchanged (no
stream is read), and every sequence of such calls, of any length and in any order, returns
only empty strings and ends in the state it started from.  Both calls complete; neither has
an error result. -/
theorem not_started_noop (st : State) (hin : st.stockfish_in = none)
    (hout : st.stockfish_out = none) :
    (∀ cmd, sendCommand st cmd = st) ∧ readOutput st = some ([], st) ∧
    ∀ ops, run ops st = some (List.replicate (ops.count Op.read) [], st) := by
  have hs : ∀ cmd, sendCommand st cmd = st := by
    intro cmd; unfold sendCommand; rw [hin]
  have hr : readOutput st = some ([], st) := by
    unfold readOutput; rw [hout]
  refine ⟨hs, hr, ?_⟩
  intro ops
  induction ops with
  | nil => rfl
  | cons op ops ih =>
    cases op with
    | send cmd =>
      have hc : (Op.send cmd :: ops).count Op.read = ops.count Op.read := by
        rw [List.count_cons]; simp
      rw [hc]
      simp only [run, hs, ih]
    | read =>
      have hc : (Op.read :: ops).count Op.read = ops.count Op.read + 1 := by
        rw [List.count_cons]; simp
      rw [hc]
      simp only [run, hr, ih, List.replicate_succ]

/-- Witness for C3: a fresh process, three calls. -/
theorem not_started_noop_witness :
    boot.stockfish_in = none ∧ boot.stockfish_out = none ∧
    run [Op.read, Op.send (ascii "uci" ++ [0]), Op.read] boot = some ([[], []], boot) :=
  ⟨rfl, rfl, (not_started_noop boot rfl rfl).2.2 [Op.read, Op.send (ascii "uci" ++ [0]), Op.read]⟩


/-! ## The streams stay on their pipes -/

theorem onlyPipe_writerOn (st st1 : State) (p q : Nat) (h : OnlyPipe st st1 p)
    (hw : WriterOn st q) : WriterOn st1 q := by
  obtain ⟨_, _, _, a4, a5, _, a7, _⟩ := h
  rw [writerOn_iff] at hw ⊢
  obtain ⟨f, h1, h2, h3, h4⟩ := hw
  refine ⟨f, a4.trans h1, h2, ?_, a7 ▸ h4⟩
  unfold Kernel.chanOf at h3 ⊢
  rw [a5]; exact h3

/-- The kernel after a call of `fgets` that returns: at most one pipe queue was replaced and
the read was recorded. -/
theorem fgets_kernel (n : Nat) (f : FILE) (k k1 : Kernel)
    (h : fgets n f k = Fgets.null k1 ∨ ∃ d, fgets n f k = Fgets.line d k1) :
    ∃ p q, k1 = (k.setPipe p q).log (Call.read f.fd) ∨ k1 = k.log (Call.read f.fd) := by
  cases hch : k.chanOf f.fd with
  | none =>
    simp only [fgets, hch] at h
    rcases h with h | ⟨d, h⟩
    · injection h with h; exact ⟨0, [], Or.inr h.symm⟩
    · cases h
  | some c =>
    cases c with
    | devNull =>
      simp only [fgets, hch] at h
      rcases h with h | ⟨d, h⟩
      · injection h with h; exact ⟨0, [], Or.inr h.symm⟩
      · cases h
    | pipeWrite p =>
      simp only [fgets, hch] at h
      rcases h with h | ⟨d, h⟩
      · injection h with h; exact ⟨0, [], Or.inr h.symm⟩
      · cases h
    | pipeRead p =>
      simp only [fgets, hch] at h
      refine ⟨p, (k.pipeBytes p).drop (scanLine (n - 1) (k.pipeBytes p)).length, ?_⟩
      split_ifs at h
      · rcases h with h | ⟨d, h⟩
        · cases h
        · injection h with _ h; exact Or.inl h.symm
      · rcases h with h | ⟨d, h⟩
        · cases h
        · cases h
      · rcases h with h | ⟨d, h⟩
        · injection h with h; exact Or.inr h.symm
        · cases h
      · rcases h with h | ⟨d, h⟩
        · cases h
        · injection h with _ h; exact Or.inl h.symm

/-- A `readOutput` call that returns changes at most one pipe queue and the call record. -/
theorem readOutput_onlyPipe (st st1 : State) (out : List Nat)
    (h : readOutput st = some (out, st1)) : ∃ q, OnlyPipe st st1 q := by
  unfold readOutput at h
  cases hso : st.stockfish_out with
  | none =>
    rw [hso] at h
    simp only [Option.some.injEq, Prod.mk.injEq] at h
    exact ⟨0, h.2 ▸ onlyPipe_refl st 0⟩
  | some f =>
    have key : ∀ k1, (fgets 1024 f st.k = Fgets.null k1 ∨
        ∃ d, fgets 1024 f st.k = Fgets.line d k1) →
        ∃ q, OnlyPipe st { st with k := k1 } q := by
      intro k1 hk
      obtain ⟨p, q, e | e⟩ := fgets_kernel 1024 f st.k k1 hk
      · exact ⟨p, e ▸ onlyPipe_read st p q _⟩
      · exact ⟨0, e ▸ ⟨rfl, rfl, rfl, rfl, rfl, rfl, rfl, fun _ _ => rfl⟩⟩
    cases hf : fgets 1024 f st.k with
    | blocks => simp [hso, hf] at h
    | null k =>
      simp only [hso, hf, Option.some.injEq, Prod.mk.injEq] at h
      obtain ⟨q, hq⟩ := key k (Or.inl hf)
      exact ⟨q, h.2 ▸ hso ▸ hq⟩
    | line data k =>
      simp only [hso, hf, Option.some.injEq, Prod.mk.injEq] at h
      obtain ⟨q, hq⟩ := key k (Or.inr ⟨data, hf⟩)
      exact ⟨q, h.2 ▸ hso ▸ hq⟩

/-- Once the writer stream is on pipe `pin` and the reader stream on pipe `pout`, they stay
there through every sequence of `sendCommand` and `readOutput` calls. -/
theorem run_keeps_streams (pin pout : Nat) (ops : List Op) (st st1 : State)
    (outs : List (List Nat)) (hw : WriterOn st pin) (hr : ReaderOn st pout)
    (h : run ops st = some (outs, st1)) : WriterOn st1 pin ∧ ReaderOn st1 pout := by
  induction ops generalizing st outs with
  | nil =>
    simp only [run, Option.some.injEq, Prod.mk.injEq] at h
    exact h.2 ▸ ⟨hw, hr⟩
  | cons op ops ih =>
    cases op with
    | send cmd =>
      simp only [run] at h
      obtain ⟨f, h1, h2, h3, h4⟩ := (writerOn_iff st pin).mp hw
      have hs := sendCommand_state st f pin cmd h1 h2 h3
      have ho : OnlyPipe st (sendCommand st cmd) pin := by
        rw [hs]
        exact ⟨rfl, rfl, rfl, h1.symm, rfl, rfl, by simp, fun q hq => by
          rw [log_pipeBytes]; exact setPipe_pipeBytes_other _ _ _ _ (Ne.symm hq)⟩
      exact ih _ _ (onlyPipe_writerOn _ _ _ _ ho hw) (onlyPipe_readerOn _ _ _ _ ho hr) h
    | read =>
      simp only [run] at h
      cases hro : readOutput st with
      | none => simp [hro] at h
      | some r =>
        obtain ⟨out, s1⟩ := r
        simp only [hro] at h
        obtain ⟨q, ho⟩ := readOutput_onlyPipe st s1 out hro
        cases hrn : run ops s1 with
        | none => simp [hrn] at h
        | some r2 =>
          obtain ⟨outs2, s2⟩ := r2
          simp only [hrn, Option.some.injEq, Prod.mk.injEq] at h
          obtain ⟨_, rfl⟩ := h
          exact ih s1 outs2 (onlyPipe_writerOn _ _ _ _ ho hw)
            (onlyPipe_readerOn _ _ _ _ ho hr) hrn


/-! ## `startEngine`: the claims -/

/-- C8. When the standard descriptors are open and both pipe pairs can be created (the first
`pipe` returning `(r1, w1)`, the second `(r2, w2)`), `startEngine` makes exactly these calls,
in this order: the two `pipe` calls, `dup2(r1, STDIN_FILENO)`, `dup2(w2, STDOUT_FILENO)`,
`fdopen(w1, "w")`, `fdopen(r2, "r")`, and last the one engine thread.  Afterwards two new
pipes exist, standard input is the read end of the input pair and standard output the write
end of the output pair, `stockfish_in` is a stream on the write end of the input pair and
`stockfish_out` a stream on the read end of the output pair, so both are non-null and
`sendCommand` and `readOutput` take their initialized branch. -/
theorem startEngine_effects (st : State) (k1 k2 : Kernel) (r1 w1 r2 w2 : Nat)
    (h0 : st.k.chanOf STDIN_FILENO ≠ none) (h1 : st.k.chanOf STDOUT_FILENO ≠ none)
    (hp1 : st.k.pipe = (some (r1, w1), k1)) (hp2 : k1.pipe = (some (r2, w2), k2)) :
    (startEngine st).k.calls = st.k.calls ++
      [Call.pipe (some (r1, w1)), Call.pipe (some (r2, w2)),
       Call.dup2 r1 STDIN_FILENO, Call.dup2 w2 STDOUT_FILENO,
       Call.fdopen w1 Mode.w, Call.fdopen r2 Mode.r, Call.thread] ∧
    ((startEngine st).k.calls.drop st.k.calls.length).count Call.thread = 1 ∧
    (startEngine st).k.pipes = st.k.pipes ++ [[], []] ∧
    (startEngine st).input_pipe = (r1, w1) ∧ (startEngine st).output_pipe = (r2, w2) ∧
    (startEngine st).k.chanOf r1 = some (Chan.pipeRead st.k.pipes.length) ∧
    (startEngine st).k.chanOf w1 = some (Chan.pipeWrite st.k.pipes.length) ∧
    (startEngine st).k.chanOf r2 = some (Chan.pipeRead (st.k.pipes.length + 1)) ∧
    (startEngine st).k.chanOf w2 = some (Chan.pipeWrite (st.k.pipes.length + 1)) ∧
    (startEngine st).k.chanOf STDIN_FILENO = some (Chan.pipeRead st.k.pipes.length) ∧
    (startEngine st).k.chanOf STDOUT_FILENO = some (Chan.pipeWrite (st.k.pipes.length + 1)) ∧
    (startEngine st).stockfish_in = some { fd := w1, mode := Mode.w, buf := [] } ∧
    (startEngine st).stockfish_out = some { fd := r2, mode := Mode.r, buf := [] } ∧
    WriterOn (startEngine st) st.k.pipes.length ∧
    ReaderOn (startEngine st) (st.k.pipes.length + 1) := by
  obtain ⟨a1, a2, a3, a4, a5, a6, c1, c2, c3, c4, c5, c6, c7, c8, d1, d2, d3, d4⟩ :=
    startEngine_ok st k1 k2 r1 w1 r2 w2 h0 h1 hp1 hp2
  have hcalls : (startEngine st).k.calls = st.k.calls ++
      [Call.pipe (some (r1, w1)), Call.pipe (some (r2, w2)),
       Call.dup2 r1 STDIN_FILENO, Call.dup2 w2 STDOUT_FILENO,
       Call.fdopen w1 Mode.w, Call.fdopen r2 Mode.r, Call.thread] := by
    rw [startEngine_calls, a1, a2, hp1]
    simp only [hp2]
  have e1 : (startEngine st).k.chanOf w1 = some (Chan.pipeWrite st.k.pipes.length) := by
    rw [a6, if_neg c4, if_neg c3]; exact d2
  have e2 : (startEngine st).k.chanOf r2 = some (Chan.pipeRead (st.k.pipes.length + 1)) := by
    rw [a6, if_neg c6, if_neg c5]; exact d3
  refine ⟨hcalls, ?_, a5, a1, a2, ?_, e1, e2, ?_, ?_, ?_, a3, a4, ?_, ?_⟩
  · rw [hcalls, List.drop_left]
    simp [List.count_cons]
  · rw [a6, if_neg c2, if_neg c1]; exact d1
  · rw [a6, if_neg c8, if_neg c7]; exact d4
  · rw [a6, if_neg (by decide), if_pos rfl]
  · rw [a6, if_pos rfl]
  · rw [writerOn_iff]
    exact ⟨_, a3, rfl, e1, by rw [a5]; simp⟩
  · rw [readerOn_iff]
    exact ⟨_, a4, e2, by rw [a5]; simp⟩

/-- Witness for C8: `startEngine` in a fresh process, where the pipes get the descriptors
`(3, 4)` and `(5, 6)`. -/
theorem startEngine_effects_witness :
    boot.k.chanOf STDIN_FILENO ≠ none ∧ boot.k.chanOf STDOUT_FILENO ≠ none ∧
    boot.k.pipe = (some (3, 4), boot.k.pipe.2) ∧
    boot.k.pipe.2.pipe = (some (5, 6), boot.k.pipe.2.pipe.2) ∧
    (startEngine boot).k.calls = boot.k.calls ++
      [Call.pipe (some (3, 4)), Call.pipe (some (5, 6)),
       Call.dup2 3 STDIN_FILENO, Call.dup2 6 STDOUT_FILENO,
       Call.fdopen 4 Mode.w, Call.fdopen 5 Mode.r, Call.thread] :=
  ⟨by decide, by decide, by decide, by decide,
    (startEngine_effects boot boot.k.pipe.2 boot.k.pipe.2.pipe.2 3 4 5 6
      (by decide) (by decide) (by decide) (by decide)).1⟩

/-- C9, as stated, fails: with the descriptor table full both `pipe` calls fail, and
`startEngine` still makes both `dup2` calls, both `fdopen` calls and starts the thread, on the
descriptor `0` the zero-initialised arrays hold; both streams come out non-null. -/
theorem startEngine_pipe_failure_counterexample :
    exhausted.k.pipe.1 = none ∧ exhausted.k.pipe.2.pipe.1 = none ∧
    (startEngine exhausted).k.calls =
      [Call.pipe none, Call.pipe none, Call.dup2 0 STDIN_FILENO, Call.dup2 0 STDOUT_FILENO,
       Call.fdopen 0 Mode.w, Call.fdopen 0 Mode.r, Call.thread] ∧
    (startEngine exhausted).stockfish_in = some { fd := 0, mode := Mode.w, buf := [] } ∧
    (startEngine exhausted).stockfish_out = some { fd := 0, mode := Mode.r, buf := [] } := by
  decide

/-- C9, amended. `startEngine` does not look at what `pipe` returns: when a pipe allocation
fails, the array of that pair keeps its contents, nothing is reported, and `startEngine`
still goes on to make both `dup2` calls, both `fdopen` calls and to start the engine thread,
with the descriptors the arrays hold. -/
theorem startEngine_ignores_pipe_failure (st : State) :
    (st.k.pipe.1 = none → (startEngine st).input_pipe = st.input_pipe) ∧
    (st.k.pipe.2.pipe.1 = none → (startEngine st).output_pipe = st.output_pipe) ∧
    (startEngine st).k.calls = st.k.calls ++
      [Call.pipe st.k.pipe.1, Call.pipe st.k.pipe.2.pipe.1,
       Call.dup2 (startEngine st).input_pipe.1 STDIN_FILENO,
       Call.dup2 (startEngine st).output_pipe.2 STDOUT_FILENO,
       Call.fdopen (startEngine st).input_pipe.2 Mode.w,
       Call.fdopen (startEngine st).output_pipe.1 Mode.r,
       Call.thread] := by
  refine ⟨?_, ?_, startEngine_calls st⟩
  · intro h; rw [(startEngine_arrays st).1, h]; rfl
  · intro h; rw [(startEngine_arrays st).2, h]; rfl

/-- Witness for the amended C9: the process whose descriptor table is full. -/
theorem startEngine_ignores_pipe_failure_witness :
    exhausted.k.pipe.1 = none ∧
    (startEngine exhausted).input_pipe = exhausted.input_pipe :=
  ⟨by decide, (startEngine_ignores_pipe_failure exhausted).1 (by decide)⟩


/-! ## `readOutput`: lines, chunks, end of file -/

theorem getLast?_ne_of_not_mem (l : List Nat) (a : Nat) (h : a ∉ l) : l.getLast? ≠ some a :=
  fun e => h (List.mem_of_getLast?_eq_some e)

/-- A full line that fits: the call returns the line and takes the line and its `'\n'`. -/
theorem readOutput_full_line (st : State) (p : Nat) (line rest : List Nat)
    (hr : ReaderOn st p) (h10 : 10 ∉ line) (h0 : 0 ∉ line) (hlen : line.length ≤ 1022)
    (hp : st.k.pipeBytes p = line ++ 10 :: rest) :
    ∃ st1, readOutput st = some (line, st1) ∧ st1.k.pipeBytes p = rest ∧ OnlyPipe st st1 p := by
  have hs : scanLine 1023 (st.k.pipeBytes p) = line ++ [10] := by
    rw [hp]; exact scanLine_append_nl 1023 line rest h10 (by omega)
  obtain ⟨st1, e1, e2, e3⟩ := readOutput_data st p hr (Or.inr (by rw [hs]; simp))
  refine ⟨st1, ?_, ?_, e3⟩
  · rw [e1, hs]
    have hnul : 0 ∉ line ++ [10] := by simp [h0]
    rw [cstr_stripNewline (line ++ [10]) [] hnul]
    simp
  · rw [e2, hs, hp]
    simp

/-- A line that does not fit: the call returns its first 1023 bytes and takes only those. -/
theorem readOutput_chunk (st : State) (p : Nat) (line rest : List Nat)
    (hr : ReaderOn st p) (h10 : 10 ∉ line) (h0 : 0 ∉ line) (hlen : 1023 ≤ line.length)
    (hp : st.k.pipeBytes p = line ++ rest) :
    ∃ st1, readOutput st = some (line.take 1023, st1) ∧
      st1.k.pipeBytes p = line.drop 1023 ++ rest ∧ OnlyPipe st st1 p := by
  have hs : scanLine 1023 (st.k.pipeBytes p) = line.take 1023 := by
    rw [hp]; exact scanLine_long 1023 line rest h10 hlen
  have hl : (line.take 1023).length = 1023 := by rw [List.length_take]; omega
  obtain ⟨st1, e1, e2, e3⟩ := readOutput_data st p hr (Or.inl (by rw [hs]; exact hl))
  refine ⟨st1, ?_, ?_, e3⟩
  · rw [e1, hs]
    have hnul : 0 ∉ line.take 1023 := fun e => h0 (List.mem_of_mem_take e)
    have hnl : 10 ∉ line.take 1023 := fun e => h10 (List.mem_of_mem_take e)
    rw [cstr_stripNewline (line.take 1023) [] hnul,
      if_neg (getLast?_ne_of_not_mem _ _ hnl)]
  · rw [e2, hs, hp, hl, List.drop_append_of_le_length hlen]

/-- End of file with nothing pending: the call returns the empty string and the stream stays
as it is. -/
theorem readOutput_at_eof (st : State) (p : Nat) (hr : ReaderOn st p)
    (hp : st.k.pipeBytes p = []) (hw : st.k.hasWriter p = false) :
    ∃ st1, readOutput st = some ([], st1) ∧ st1.k.pipeBytes p = [] ∧ OnlyPipe st st1 p := by
  have hs : scanLine 1023 (st.k.pipeBytes p) = [] := by rw [hp]; rfl
  obtain ⟨st1, e1, e2, e3⟩ := readOutput_eof st p hr (by rw [hs]; simp) hw
  refine ⟨st1, ?_, ?_, e3⟩
  · rw [e1, if_pos hs]
  · rw [e2, hp]; rfl

theorem readN_append (a b : Nat) (st s1 s2 : State) (o1 o2 : List (List Nat))
    (h1 : readN a st = some (o1, s1)) (h2 : readN b s1 = some (o2, s2)) :
    readN (a + b) st = some (o1 ++ o2, s2) := by
  induction a generalizing st o1 with
  | zero =>
    simp only [readN, Option.some.injEq, Prod.mk.injEq] at h1
    obtain ⟨rfl, rfl⟩ := h1
    simpa using h2
  | succ n ih =>
    rw [Nat.succ_add]
    simp only [readN] at h1 ⊢
    cases hro : readOutput st with
    | none => simp [hro] at h1
    | some r =>
      obtain ⟨out, st1⟩ := r
      simp only [hro] at h1 ⊢
      cases hrn : readN n st1 with
      | none => simp [hrn] at h1
      | some r2 =>
        obtain ⟨outs, st2⟩ := r2
        simp only [hrn, Option.some.injEq, Prod.mk.injEq] at h1
        obtain ⟨rfl, rfl⟩ := h1
        rw [ih st1 outs hrn]
        rfl

theorem readN_one (st st1 : State) (out : List Nat) (h : readOutput st = some (out, st1)) :
    readN 1 st = some ([out], st1) := by
  simp [readN, h]

/-- Lines that fit come out one per call, in order. -/
theorem readN_lines (p : Nat) (ls : List (List Nat)) (rest : List Nat) (st : State)
    (hr : ReaderOn st p) (hl : ∀ l ∈ ls, 10 ∉ l ∧ 0 ∉ l ∧ l.length ≤ 1022)
    (hp : st.k.pipeBytes p = wire ls ++ rest) :
    ∃ st1, readN ls.length st = some (ls, st1) ∧ st1.k.pipeBytes p = rest ∧
      OnlyPipe st st1 p := by
  induction ls generalizing st with
  | nil => exact ⟨st, rfl, by simpa [wire] using hp, onlyPipe_refl st p⟩
  | cons l ls ih =>
    obtain ⟨h10, h0, hlen⟩ := hl l (List.mem_cons_self _ _)
    have hp1 : st.k.pipeBytes p = l ++ 10 :: (wire ls ++ rest) := by
      rw [hp]; simp [wire]
    obtain ⟨st1, e1, e2, e3⟩ := readOutput_full_line st p l _ hr h10 h0 hlen hp1
    obtain ⟨st2, f1, f2, f3⟩ := ih st1 (onlyPipe_readerOn st st1 p p e3 hr)
      (fun x hx => hl x (List.mem_cons_of_mem _ hx)) e2
    refine ⟨st2, ?_, f2, onlyPipe_trans _ _ _ _ e3 f3⟩
    simp only [List.length_cons, readN, e1, f1]


/-! ## `readOutput`: the claims on single lines -/

theorem afterOutput_reader (bytes : List Nat) :
    ReaderOn (afterOutput bytes) 1 ∧ (afterOutput bytes).k.pipeBytes 1 = bytes := by
  have h : (startEngine boot).k.chanOf STDOUT_FILENO = some (Chan.pipeWrite 1) := by decide
  have e : afterOutput bytes = { startEngine boot with
      k := (startEngine boot).k.setPipe 1 ((startEngine boot).k.pipeBytes 1 ++ bytes) } := by
    simp only [afterOutput, engineWrite, Kernel.write, h]
  have hp : (startEngine boot).k.pipeBytes 1 = [] := by decide
  rw [e, hp]
  constructor
  · rw [readerOn_iff]
    refine ⟨{ fd := 5, mode := Mode.r, buf := [] }, rfl, rfl, ?_⟩
    show 1 < ((startEngine boot).k.pipes.set 1 _).length
    rw [List.length_set]
    decide
  · exact setPipe_pipeBytes_self _ _ _ (by decide)

/-- A pending run of `n` bytes `b`, `n` at least 1023: one call returns 1023 of them and
takes nothing more. -/
theorem readOutput_replicate (n b : Nat) (rest : List Nat) (hn : 1023 ≤ n) (hb10 : b ≠ 10)
    (hb0 : b ≠ 0) :
    10 ∉ List.replicate n b ∧ 0 ∉ List.replicate n b ∧
    ReaderOn (afterOutput (List.replicate n b ++ rest)) 1 ∧
    (afterOutput (List.replicate n b ++ rest)).k.pipeBytes 1 = List.replicate n b ++ rest ∧
    ∃ st1, readOutput (afterOutput (List.replicate n b ++ rest)) =
        some (List.replicate 1023 b, st1) ∧
      st1.k.pipeBytes 1 = List.replicate (n - 1023) b ++ rest ∧ ReaderOn st1 1 := by
  have h10 : 10 ∉ List.replicate n b := fun e => hb10 (List.eq_of_mem_replicate e).symm
  have h0 : 0 ∉ List.replicate n b := fun e => hb0 (List.eq_of_mem_replicate e).symm
  obtain ⟨hr, hp⟩ := afterOutput_reader (List.replicate n b ++ rest)
  have hl : (List.replicate n b).length = n := List.length_replicate _ _
  obtain ⟨st1, e1, e2, e3⟩ := readOutput_chunk _ 1 (List.replicate n b) rest hr h10 h0
    (by rw [hl]; exact hn) hp
  rw [List.take_replicate, Nat.min_eq_left hn] at e1
  rw [List.drop_replicate] at e2
  exact ⟨h10, h0, hr, hp, st1, e1, e2, onlyPipe_readerOn _ _ 1 1 e3 hr⟩

theorem not_mem_replicate (a b n : Nat) (h : a ≠ b) : a ∉ List.replicate n b :=
  fun e => h (List.eq_of_mem_replicate e)

/-- C2, as stated, fails.  A line of 1023 bytes `a` followed by `'\n'`: `readOutput` returns
the line but takes only the line, the `'\n'` stays pending.  A line of 1024 bytes `a`:
`readOutput` returns only its first 1023 bytes.  A line with a NUL byte, `a NUL b`:
`readOutput` returns only `a`. -/
theorem readOutput_strip_counterexample :
    (10 ∉ List.replicate 1023 97 ∧
      ReaderOn (afterOutput (List.replicate 1023 97 ++ [10])) 1 ∧
      (afterOutput (List.replicate 1023 97 ++ [10])).k.pipeBytes 1 =
        List.replicate 1023 97 ++ [10] ∧
      ∃ st1, readOutput (afterOutput (List.replicate 1023 97 ++ [10])) =
          some (List.replicate 1023 97, st1) ∧ st1.k.pipeBytes 1 = [10]) ∧
    (10 ∉ List.replicate 1024 97 ∧
      ReaderOn (afterOutput (List.replicate 1024 97 ++ [10])) 1 ∧
      (afterOutput (List.replicate 1024 97 ++ [10])).k.pipeBytes 1 =
        List.replicate 1024 97 ++ [10] ∧
      (∃ st1, readOutput (afterOutput (List.replicate 1024 97 ++ [10])) =
          some (List.replicate 1023 97, st1)) ∧
      List.replicate 1023 97 ≠ List.replicate 1024 97) ∧
    (10 ∉ [97, 0, 98] ∧
      ReaderOn (afterOutput ([97, 0, 98] ++ [10])) 1 ∧
      (afterOutput ([97, 0, 98] ++ [10])).k.pipeBytes 1 = [97, 0, 98] ++ [10] ∧
      (readOutput (afterOutput ([97, 0, 98] ++ [10]))).map Prod.fst = some [97]) := by
  obtain ⟨h10, _, hr, hp, st1, e1, e2, _⟩ :=
    readOutput_replicate 1023 97 [10] (Nat.le_refl _) (by decide) (by decide)
  obtain ⟨g10, _, gr, gp, st2, f1, _, _⟩ :=
    readOutput_replicate 1024 97 [10] (by decide) (by decide) (by decide)
  refine ⟨⟨h10, hr, hp, st1, e1, e2⟩, ⟨g10, gr, gp, ⟨st2, f1⟩, ?_⟩,
    by decide, by decide, by decide, by decide⟩
  intro h
  have := congrArg List.length h
  rw [List.length_replicate, List.length_replicate] at this
  exact absurd this (by decide)

/-- C2, amended.  For every line that contains no `'\n'` and no NUL byte and is at most 1022
bytes long: when the reader stream is open on the output pipe and the bytes pending there
begin with the line followed by `'\n'`, `readOutput` returns exactly the line and takes
exactly the line and its `'\n'` from the stream, changing nothing else but the call
record. -/
theorem readOutput_strips_terminator (st : State) (p : Nat) (line rest : List Nat)
    (hr : ReaderOn st p) (h10 : 10 ∉ line) (h0 : 0 ∉ line) (hlen : line.length ≤ 1022)
    (hp : st.k.pipeBytes p = line ++ 10 :: rest) :
    ∃ st1, readOutput st = some (line, st1) ∧ st1.k.pipeBytes p = rest ∧ OnlyPipe st st1 p :=
  readOutput_full_line st p line rest hr h10 h0 hlen hp

/-- Witness for the amended C2: the engine wrote `info depth 5` and a `'\n'`. -/
theorem readOutput_strips_terminator_witness :
    ReaderOn (afterOutput (ascii "info depth 5" ++ 10 :: [])) 1 ∧
    10 ∉ ascii "info depth 5" ∧ 0 ∉ ascii "info depth 5" ∧
    (ascii "info depth 5").length ≤ 1022 ∧
    (afterOutput (ascii "info depth 5" ++ 10 :: [])).k.pipeBytes 1 =
      ascii "info depth 5" ++ 10 :: [] ∧
    ∃ st1, readOutput (afterOutput (ascii "info depth 5" ++ 10 :: [])) =
      some (ascii "info depth 5", st1) ∧ st1.k.pipeBytes 1 = [] ∧
      OnlyPipe (afterOutput (ascii "info depth 5" ++ 10 :: [])) st1 1 :=
  ⟨by decide, by decide, by decide, by decide, by decide,
    readOutput_strips_terminator (afterOutput (ascii "info depth 5" ++ 10 :: [])) 1
      (ascii "info depth 5") [] (by decide) (by decide) (by decide) (by decide) (by decide)⟩

/-- C4, as stated, fails.  A line of 1023 bytes `b` takes, with its `'\n'`, 1024 bytes of the
stream.  The first `readOutput` returns the line and leaves its `'\n'` pending; the second
call returns the empty string instead of the next line `ok`.  A line with a NUL byte that
fits is not returned whole either. -/
theorem readOutput_bound_counterexample :
    (List.replicate 1023 98 ++ [10]).length ≤ 1024 ∧ 10 ∉ List.replicate 1023 98 ∧
    ReaderOn (afterOutput (List.replicate 1023 98 ++ 10 :: ascii "ok\n")) 1 ∧
    (afterOutput (List.replicate 1023 98 ++ 10 :: ascii "ok\n")).k.pipeBytes 1 =
      List.replicate 1023 98 ++ 10 :: ascii "ok\n" ∧
    (∃ st1 st2, readOutput (afterOutput (List.replicate 1023 98 ++ 10 :: ascii "ok\n")) =
        some (List.replicate 1023 98, st1) ∧ st1.k.pipeBytes 1 = 10 :: ascii "ok\n" ∧
        readOutput st1 = some ([], st2)) ∧
    (readOutput (afterOutput ([98, 0, 99] ++ 10 :: ascii "ok\n"))).map Prod.fst = some [98] := by
  obtain ⟨h10, _, hr, hp, st1, e1, e2, e3⟩ :=
    readOutput_replicate 1023 98 (10 :: ascii "ok\n") (Nat.le_refl _) (by decide) (by decide)
  obtain ⟨st2, f1, _, _⟩ := readOutput_full_line st1 1 [] (ascii "ok\n") e3
    (by decide) (by decide) (by decide) (by rw [e2]; rfl)
  refine ⟨?_, h10, hr, hp, ⟨st1, st2, e1, e2, f1⟩, by decide⟩
  rw [List.length_append, List.length_replicate]
  decide

/-- C4, amended.  The read bound of `readOutput` is 1023 bytes: for every full line without
NUL byte that, together with its `'\n'`, takes at most 1023 bytes of the output stream, a
single `readOutput` call returns the whole line with the `'\n'` stripped and leaves nothing of
that line pending: what follows the `'\n'` is what the next call finds. -/
theorem readOutput_within_bound (st : State) (p : Nat) (line rest : List Nat)
    (hr : ReaderOn st p) (h10 : 10 ∉ line) (h0 : 0 ∉ line)
    (hlen : (line ++ [10]).length ≤ 1023) (hp : st.k.pipeBytes p = line ++ 10 :: rest) :
    ∃ st1, readOutput st = some (line, st1) ∧ st1.k.pipeBytes p = rest ∧
      ReaderOn st1 p := by
  obtain ⟨st1, e1, e2, e3⟩ := readOutput_full_line st p line rest hr h10 h0
    (by rw [List.length_append] at hlen; exact Nat.le_of_succ_le_succ hlen) hp
  exact ⟨st1, e1, e2, onlyPipe_readerOn st st1 p p e3 hr⟩

/-- Witness for the amended C4: a line of 1022 bytes, the longest that fits. -/
theorem readOutput_within_bound_witness :
    ReaderOn (afterOutput (List.replicate 1022 98 ++ 10 :: ascii "ok\n")) 1 ∧
    (List.replicate 1022 98 ++ [10]).length ≤ 1023 ∧
    ∃ st1, readOutput (afterOutput (List.replicate 1022 98 ++ 10 :: ascii "ok\n")) =
      some (List.replicate 1022 98, st1) ∧ st1.k.pipeBytes 1 = ascii "ok\n" ∧
      ReaderOn st1 1 :=
  ⟨(afterOutput_reader _).1, by rw [List.length_append, List.length_replicate]; decide,
    readOutput_within_bound (afterOutput (List.replicate 1022 98 ++ 10 :: ascii "ok\n")) 1
      (List.replicate 1022 98) (ascii "ok\n") (afterOutput_reader _).1
      (not_mem_replicate 10 98 1022 (by decide)) (not_mem_replicate 0 98 1022 (by decide))
      (by rw [List.length_append, List.length_replicate]; decide) (afterOutput_reader _).2⟩


/-! ## `readOutput`: end of file, several lines, long lines -/

/-- C6. When the reader stream is open on the output pipe, nothing is pending there and no
descriptor is left on the write end of that pipe (the output side has been closed),
`readOutput` returns the empty string; the call completes (the result is not `none`, it does
not wait); and the stream stays at end of file with nothing pending, so that any number of
later `readOutput` calls all return the empty string as well. -/
theorem readOutput_closed_empty (st : State) (p : Nat) (hr : ReaderOn st p)
    (hp : st.k.pipeBytes p = []) (hw : st.k.hasWriter p = false) :
    (∃ st1, readOutput st = some ([], st1) ∧ ReaderOn st1 p ∧ st1.k.pipeBytes p = [] ∧
      st1.k.hasWriter p = false) ∧
    ∀ n, ∃ stn, readN n st = some (List.replicate n [], stn) ∧ ReaderOn stn p ∧
      stn.k.pipeBytes p = [] ∧ stn.k.hasWriter p = false := by
  have step : ∀ s : State, ReaderOn s p → s.k.pipeBytes p = [] → s.k.hasWriter p = false →
      ∃ s1, readOutput s = some ([], s1) ∧ ReaderOn s1 p ∧ s1.k.pipeBytes p = [] ∧
        s1.k.hasWriter p = false := by
    intro s h1 h2 h3
    obtain ⟨s1, e1, e2, e3⟩ := readOutput_at_eof s p h1 h2 h3
    exact ⟨s1, e1, onlyPipe_readerOn s s1 p p e3 h1, e2,
      (onlyPipe_hasWriter s s1 p p e3).trans h3⟩
  refine ⟨step st hr hp hw, ?_⟩
  intro n
  induction n generalizing st with
  | zero => exact ⟨st, rfl, hr, hp, hw⟩
  | succ n ih =>
    obtain ⟨s1, e1, e2, e3, e4⟩ := step st hr hp hw
    obtain ⟨sn, f1, f2, f3, f4⟩ := ih s1 e2 e3 e4
    exact ⟨sn, by simp only [readN, e1, f1, List.replicate_succ], f2, f3, f4⟩

/-- Witness for C6: the started bridge after standard output and `output_pipe[1]` were
closed. -/
theorem readOutput_closed_empty_witness :
    ReaderOn outputClosed 1 ∧ outputClosed.k.pipeBytes 1 = [] ∧
    outputClosed.k.hasWriter 1 = false ∧
    ∃ stn, readN 3 outputClosed = some (List.replicate 3 [], stn) ∧ ReaderOn stn 1 ∧
      stn.k.pipeBytes 1 = [] ∧ stn.k.hasWriter 1 = false :=
  ⟨by decide, by decide, by decide,
    (readOutput_closed_empty outputClosed 1 (by decide) (by decide) (by decide)).2 3⟩

/-- C7, as stated, fails.  The engine wrote a line of 1023 bytes `a` (shorter than 1024) and
then `uciok`: two `readOutput` calls return that line and the empty string, not the two
lines.  And a line `a NUL b` comes out as `a`. -/
theorem readOutput_fifo_counterexample :
    (∀ l ∈ [List.replicate 1023 97, ascii "uciok"], 10 ∉ l ∧ l.length < 1024) ∧
    ReaderOn (afterOutput (wire [List.replicate 1023 97, ascii "uciok"])) 1 ∧
    (afterOutput (wire [List.replicate 1023 97, ascii "uciok"])).k.pipeBytes 1 =
      wire [List.replicate 1023 97, ascii "uciok"] ∧
    (∃ st2, readN 2 (afterOutput (wire [List.replicate 1023 97, ascii "uciok"])) =
      some ([List.replicate 1023 97, []], st2)) ∧
    [List.replicate 1023 97, []] ≠ [List.replicate 1023 97, ascii "uciok"] ∧
    (readN 1 (afterOutput (wire [[97, 0, 98]]))).map Prod.fst = some [[97]] := by
  have hw : wire [List.replicate 1023 97, ascii "uciok"] =
      List.replicate 1023 97 ++ (10 :: ascii "uciok\n") := rfl
  obtain ⟨h10, _, hr, hp, st1, e1, e2, e3⟩ :=
    readOutput_replicate 1023 97 (10 :: ascii "uciok\n") (Nat.le_refl _) (by decide) (by decide)
  obtain ⟨st2, f1, _, _⟩ := readOutput_full_line st1 1 [] (ascii "uciok\n") e3
    (by decide) (by decide) (by decide) (by rw [e2]; rfl)
  rw [hw]
  refine ⟨?_, hr, hp, ⟨st2, ?_⟩, ?_, by decide⟩
  · intro l hl
    rcases List.mem_cons.mp hl with rfl | hl
    · exact ⟨h10, by rw [List.length_replicate]; decide⟩
    · rcases List.mem_cons.mp hl with rfl | hl
      · decide
      · cases hl
  · simp only [readN, e1, f1]
  · intro h
    have h2 := (List.cons.inj (List.cons.inj h).2).1
    exact absurd h2 (by decide)

/-- C7, amended.  First in, first out, without drops: for every list of lines, each without
`'\n'`, without NUL byte and at most 1022 bytes long, if the bytes pending on the output pipe
of an initialized bridge begin with these lines, each followed by `'\n'`, then as many
successive `readOutput` calls as there are lines return exactly these lines in this order,
none skipped, merged or repeated, and take exactly these bytes. -/
theorem readOutput_fifo (st : State) (p : Nat) (ls : List (List Nat)) (rest : List Nat)
    (hr : ReaderOn st p) (hl : ∀ l ∈ ls, 10 ∉ l ∧ 0 ∉ l ∧ l.length ≤ 1022)
    (hp : st.k.pipeBytes p = wire ls ++ rest) :
    ∃ st1, readN ls.length st = some (ls, st1) ∧ st1.k.pipeBytes p = rest ∧
      ReaderOn st1 p := by
  obtain ⟨st1, e1, e2, e3⟩ := readN_lines p ls rest st hr hl hp
  exact ⟨st1, e1, e2, onlyPipe_readerOn st st1 p p e3 hr⟩

/-- Witness for the amended C7: the answer to `uci`, up to and including `uciok`. -/
theorem readOutput_fifo_witness :
    ReaderOn (afterOutput (wire [ascii "id name Stockfish", ascii "", ascii "uciok"])) 1 ∧
    (∀ l ∈ [ascii "id name Stockfish", ascii "", ascii "uciok"],
      10 ∉ l ∧ 0 ∉ l ∧ l.length ≤ 1022) ∧
    ∃ st1, readN 3 (afterOutput (wire [ascii "id name Stockfish", ascii "", ascii "uciok"])) =
      some ([ascii "id name Stockfish", ascii "", ascii "uciok"], st1) ∧
      st1.k.pipeBytes 1 = [] ∧ ReaderOn st1 1 :=
  ⟨by decide, by decide,
    readOutput_fifo (afterOutput (wire [ascii "id name Stockfish", ascii "", ascii "uciok"])) 1
      [ascii "id name Stockfish", ascii "", ascii "uciok"] [] (by decide) (by decide)
      (by decide)⟩


/-! ## `readOutput`: lines longer than the buffer -/

/-- The first `j` calls on a long line return its first `j` blocks of 1023 bytes. -/
theorem readN_blocks (p : Nat) (line rest : List Nat) (st : State)
    (hr : ReaderOn st p) (h10 : 10 ∉ line) (h0 : 0 ∉ line)
    (hp : st.k.pipeBytes p = line ++ 10 :: rest) (j : Nat) (hj : j ≤ line.length / 1023) :
    ∃ cj sj, readN j st = some (cj, sj) ∧ cj.flatten = line.take (1023 * j) ∧
      sj.k.pipeBytes p = line.drop (1023 * j) ++ 10 :: rest ∧ OnlyPipe st sj p := by
  induction j with
  | zero => exact ⟨[], st, rfl, by simp, by simpa using hp, onlyPipe_refl st p⟩
  | succ j ih =>
    obtain ⟨cj, sj, e1, e2, e3, e4⟩ := ih (Nat.le_of_succ_le hj)
    have hmul : 1023 * (j + 1) ≤ line.length := by
      have := (Nat.le_div_iff_mul_le (by decide : 0 < 1023)).mp hj
      omega
    have hlen : 1023 ≤ (line.drop (1023 * j)).length := by
      rw [List.length_drop]; omega
    obtain ⟨s1, f1, f2, f3⟩ := readOutput_chunk sj p (line.drop (1023 * j)) (10 :: rest)
      (onlyPipe_readerOn st sj p p e4 hr) (fun e => h10 (List.mem_of_mem_drop e))
      (fun e => h0 (List.mem_of_mem_drop e)) hlen e3
    refine ⟨cj ++ [(line.drop (1023 * j)).take 1023], s1,
      readN_append j 1 st sj s1 cj _ e1 (readN_one sj s1 _ f1), ?_, ?_,
      onlyPipe_trans _ _ _ _ e4 f3⟩
    · rw [List.flatten_append, e2, Nat.mul_succ, List.take_add]
      simp
    · rw [f2, List.drop_drop, Nat.mul_succ]

/-- All calls on a long line: the blocks and then the remainder, which takes the `'\n'`. -/
theorem readN_whole_line (p : Nat) (line rest : List Nat) (st : State)
    (hr : ReaderOn st p) (h10 : 10 ∉ line) (h0 : 0 ∉ line)
    (hp : st.k.pipeBytes p = line ++ 10 :: rest) :
    ∃ chunks st2, readN (line.length / 1023 + 1) st = some (chunks, st2) ∧
      chunks.flatten = line ∧ st2.k.pipeBytes p = rest ∧ OnlyPipe st st2 p := by
  obtain ⟨cj, sj, e1, e2, e3, e4⟩ :=
    readN_blocks p line rest st hr h10 h0 hp (line.length / 1023) (Nat.le_refl _)
  have hlen : (line.drop (1023 * (line.length / 1023))).length ≤ 1022 := by
    rw [List.length_drop]
    have h1 := Nat.div_add_mod line.length 1023
    have h2 := Nat.mod_lt line.length (by decide : 0 < 1023)
    omega
  obtain ⟨s1, f1, f2, f3⟩ := readOutput_full_line sj p _ rest
    (onlyPipe_readerOn st sj p p e4 hr) (fun e => h10 (List.mem_of_mem_drop e))
    (fun e => h0 (List.mem_of_mem_drop e)) hlen e3
  refine ⟨cj ++ [line.drop (1023 * (line.length / 1023))], s1,
    readN_append _ 1 st sj s1 cj _ e1 (readN_one sj s1 _ f1), ?_, f2,
    onlyPipe_trans _ _ _ _ e4 f3⟩
  rw [List.flatten_append, e2]
  simp

/-- C5, as stated, fails.  A line of 1025 bytes, a NUL byte followed by 1024 bytes `a`: the
first `readOutput` takes 1023 bytes of it and returns the empty string, not a non-empty part
of the line; the second call returns `aa` and takes the `'\n'`.  The two returned strings
together are `aa`, not the line. -/
theorem readOutput_long_line_counterexample :
    10 ∉ 0 :: List.replicate 1024 97 ∧ 1024 < (0 :: List.replicate 1024 97).length ∧
    ReaderOn (afterOutput ((0 :: List.replicate 1024 97) ++ [10])) 1 ∧
    (afterOutput ((0 :: List.replicate 1024 97) ++ [10])).k.pipeBytes 1 =
      (0 :: List.replicate 1024 97) ++ [10] ∧
    ∃ st1 st2, readOutput (afterOutput ((0 :: List.replicate 1024 97) ++ [10])) =
        some ([], st1) ∧ st1.k.pipeBytes 1 = [97, 97, 10] ∧
      readOutput st1 = some ([97, 97], st2) ∧ st2.k.pipeBytes 1 = [] ∧
      [] ++ [97, 97] ≠ 0 :: List.replicate 1024 97 := by
  have h10 : 10 ∉ 0 :: List.replicate 1024 97 := by
    intro e
    rcases List.mem_cons.mp e with e | e
    · cases e
    · exact absurd (List.eq_of_mem_replicate e) (by decide)
  have hlen : (0 :: List.replicate 1024 97).length = 1025 := by
    rw [List.length_cons, List.length_replicate]
  obtain ⟨hr, hp⟩ := afterOutput_reader ((0 :: List.replicate 1024 97) ++ [10])
  have htake : List.take 1023 (0 :: List.replicate 1024 97) = 0 :: List.replicate 1022 97 := by
    rw [show (1023 : Nat) = 1022 + 1 from rfl, List.take_succ_cons, List.take_replicate]
    rfl
  have hs : scanLine 1023 ((afterOutput ((0 :: List.replicate 1024 97) ++ [10])).k.pipeBytes 1)
      = 0 :: List.replicate 1022 97 := by
    rw [hp, scanLine_long 1023 _ [10] h10 (by rw [hlen]; decide), htake]
  have hsl : (0 :: List.replicate 1022 97).length = 1023 := by
    rw [List.length_cons, List.length_replicate]
  obtain ⟨st1, e1, e2, e3⟩ := readOutput_data _ 1 hr (Or.inl (by rw [hs]; exact hsl))
  rw [hs] at e1 e2
  have hout : cstr (stripNewline ((0 :: List.replicate 1022 97) ++ [0])) = [] := by
    have := cstr_stripNewline [] (List.replicate 1022 97 ++ [0]) (List.not_mem_nil 0)
    rw [if_neg (by decide)] at this
    exact this
  have hdrop : List.drop 1023 ((0 :: List.replicate 1024 97) ++ [10]) = [97, 97, 10] := by
    rw [show (1023 : Nat) = 1022 + 1 from rfl, List.cons_append, List.drop_succ_cons,
      List.drop_append_of_le_length (by rw [List.length_replicate]; decide),
      List.drop_replicate]
    rfl
  rw [hout] at e1
  rw [hp, hsl, hdrop] at e2
  obtain ⟨st2, f1, f2, _⟩ := readOutput_full_line st1 1 [97, 97] []
    (onlyPipe_readerOn _ _ 1 1 e3 hr) (by decide) (by decide) (by decide) e2
  refine ⟨h10, by rw [hlen]; decide, hr, hp, st1, st2, e1, e2, f1, f2, ?_⟩
  intro h
  have := congrArg List.length h
  rw [hlen] at this
  exact absurd this (by decide)

/-- C5, amended.  For every line without NUL byte that is longer than the read bound (more
than 1024 bytes) and is pending on the output pipe followed by `'\n'`: the first `readOutput`
returns the first 1023 bytes of the line, a non-empty part of the line that is not all of it,
and leaves exactly the remaining bytes and the `'\n'` pending; as long as no more than
`line.length / 1023` calls have been made the `'\n'` is still pending; and one call more
takes it, the strings returned by these calls being, joined in call order, exactly the line:
no byte is lost, repeated or moved. -/
theorem readOutput_long_line_chunks (st : State) (p : Nat) (line rest : List Nat)
    (hr : ReaderOn st p) (h10 : 10 ∉ line) (h0 : 0 ∉ line) (hlen : 1024 < line.length)
    (hp : st.k.pipeBytes p = line ++ 10 :: rest) :
    (∃ st1, readOutput st = some (line.take 1023, st1) ∧
      st1.k.pipeBytes p = line.drop 1023 ++ 10 :: rest) ∧
    line.take 1023 ≠ [] ∧ line.take 1023 ≠ line ∧ line.take 1023 <+: line ∧
    (∀ j, j ≤ line.length / 1023 → ∃ cj sj, readN j st = some (cj, sj) ∧
      cj.flatten = line.take (1023 * j) ∧
      sj.k.pipeBytes p = line.drop (1023 * j) ++ 10 :: rest) ∧
    (∃ chunks st2, readN (line.length / 1023 + 1) st = some (chunks, st2) ∧
      chunks.flatten = line ∧ st2.k.pipeBytes p = rest) := by
  have hl : (line.take 1023).length = 1023 := by rw [List.length_take]; omega
  refine ⟨?_, ?_, ?_, List.take_prefix 1023 line, ?_, ?_⟩
  · obtain ⟨st1, e1, e2, _⟩ := readOutput_chunk st p line (10 :: rest) hr h10 h0 (by omega) hp
    exact ⟨st1, e1, e2⟩
  · intro e; rw [e] at hl; cases hl
  · intro e; rw [e] at hl; omega
  · intro j hj
    obtain ⟨cj, sj, e1, e2, e3, _⟩ := readN_blocks p line rest st hr h10 h0 hp j hj
    exact ⟨cj, sj, e1, e2, e3⟩
  · obtain ⟨chunks, st2, e1, e2, e3, _⟩ := readN_whole_line p line rest st hr h10 h0 hp
    exact ⟨chunks, st2, e1, e2, e3⟩

/-- Witness for the amended C5: a line of 1025 bytes `a`, read in two calls. -/
theorem readOutput_long_line_chunks_witness :
    ReaderOn (afterOutput (List.replicate 1025 97 ++ 10 :: [])) 1 ∧
    10 ∉ List.replicate 1025 97 ∧ 0 ∉ List.replicate 1025 97 ∧
    1024 < (List.replicate 1025 97).length ∧
    (afterOutput (List.replicate 1025 97 ++ 10 :: [])).k.pipeBytes 1 =
      List.replicate 1025 97 ++ 10 :: [] ∧
    ∃ chunks st2, readN ((List.replicate 1025 97).length / 1023 + 1)
        (afterOutput (List.replicate 1025 97 ++ 10 :: [])) = some (chunks, st2) ∧
      chunks.flatten = List.replicate 1025 97 ∧ st2.k.pipeBytes 1 = [] :=
  ⟨(afterOutput_reader _).1, not_mem_replicate 10 97 1025 (by decide),
    not_mem_replicate 0 97 1025 (by decide), by rw [List.length_replicate]; decide,
    (afterOutput_reader _).2,
    (readOutput_long_line_chunks (afterOutput (List.replicate 1025 97 ++ 10 :: [])) 1
      (List.replicate 1025 97) [] (afterOutput_reader _).1
      (not_mem_replicate 10 97 1025 (by decide)) (not_mem_replicate 0 97 1025 (by decide))
      (by rw [List.length_replicate]; decide) (afterOutput_reader _).2).2.2.2.2.2⟩


/-! ## `readOutput`: shape of the result -/

theorem chomp_mem (c : List Nat)
    (h : 10 ∈ (if c.getLast? = some 10 then c.dropLast else c)) : 10 ∈ c.dropLast := by
  rcases List.eq_nil_or_concat c with rfl | ⟨c1, x, hc⟩
  · simp at h
  · rw [List.concat_eq_append] at hc
    subst hc
    by_cases hx : x = 10
    · subst hx
      simpa using h
    · rw [if_neg (by simp [hx])] at h
      rcases List.mem_append.mp h with e | e
      · simpa using e
      · simp at e
        exact absurd e.symm hx

theorem chomp_length (c : List Nat) :
    (if c.getLast? = some 10 then c.dropLast else c).length ≤ c.length := by
  split
  · rw [List.length_dropLast]; omega
  · exact Nat.le_refl _

theorem chomp_eq_nil (x : Nat) (cs : List Nat) :
    (if (x :: cs).getLast? = some 10 then (x :: cs).dropLast else x :: cs) = [] ↔
      x = 10 ∧ cs = [] := by
  cases cs with
  | nil =>
    by_cases hx : x = 10
    · simp [hx]
    · simp [hx]
  | cons y ys =>
    split <;> simp

theorem cstr_cons (x : Nat) (d : List Nat) :
    cstr (x :: d) = if x = 0 then [] else x :: cstr d := by
  unfold cstr
  by_cases hx : x = 0
  · simp [hx]
  · simp [List.takeWhile_cons, hx]

theorem cstr_length_le (d : List Nat) : (cstr d).length ≤ d.length := by
  induction d with
  | nil => simp [cstr]
  | cons x d ih =>
    rw [cstr_cons]
    split
    · simp
    · simp only [List.length_cons]; omega

/-- The string before the first NUL, its last byte dropped, lies within the array with its
last byte dropped. -/
theorem cstr_dropLast_subset (d : List Nat) (a : Nat) (h : a ∈ (cstr d).dropLast) :
    a ∈ d.dropLast := by
  induction d with
  | nil => simp [cstr] at h
  | cons x d ih =>
    rw [cstr_cons] at h
    by_cases hx : x = 0
    · simp [hx] at h
    · rw [if_neg hx] at h
      cases hd : d with
      | nil => subst hd; simp [cstr] at h
      | cons y ys =>
        subst hd
        rw [List.dropLast_cons₂]
        cases hc : cstr (y :: ys) with
        | nil => rw [hc] at h; simp at h
        | cons z zs =>
          rw [hc, List.dropLast_cons₂] at h
          rcases List.mem_cons.mp h with e | e
          · exact e ▸ List.mem_cons_self _ _
          · exact List.mem_cons_of_mem _ (ih (hc ▸ e))

/-- What `readOutput` returns when `fgets` stored the non-empty `scanLine room pend`. -/
theorem result_facts (room : Nat) (pend : List Nat) (hroom : 0 < room)
    (hne : scanLine room pend ≠ []) :
    10 ∉ cstr (stripNewline (scanLine room pend ++ [0])) ∧
    (cstr (stripNewline (scanLine room pend ++ [0]))).length ≤ (scanLine room pend).length ∧
    (cstr (stripNewline (scanLine room pend ++ [0])) = [] ↔
      pend.head? = some 10 ∨ pend.head? = some 0) := by
  obtain ⟨t, ht⟩ := split_at_nul (scanLine room pend)
  rw [ht, cstr_stripNewline _ t (cstr_nul_free _)]
  refine ⟨?_, ?_, ?_⟩
  · intro h
    exact scanLine_inner room pend (cstr_dropLast_subset _ _ (chomp_mem _ h))
  · exact Nat.le_trans (chomp_length _) (cstr_length_le _)
  · cases room with
    | zero => omega
    | succ n =>
      cases pend with
      | nil => simp [scanLine] at hne
      | cons x xs =>
        simp only [scanLine, List.head?_cons, Option.some.injEq]
        by_cases hx : x = 10
        · subst hx
          simp [cstr_cons, cstr]
        · rw [if_neg hx, cstr_cons]
          by_cases h0 : x = 0
          · simp [h0]
          · rw [if_neg h0, chomp_eq_nil]
            simp [hx, h0]

/-- C10. Whenever `readOutput` returns, in any state of the bridge: the returned string
contains no `'\n'` and is at most 1023 bytes long; and it is the empty string exactly when
`stockfish_out` is null (the bridge is not initialized), or the output stream is at end of
file with nothing pending, or the first pending byte is `'\n'` (an empty line of the engine)
or a NUL byte.  So an empty engine line, end of file and a bridge that was not started all
give the caller the same value. -/
theorem readOutput_result_shape (st st1 : State) (out : List Nat)
    (h : readOutput st = some (out, st1)) :
    10 ∉ out ∧ out.length ≤ 1023 ∧
    (out = [] ↔ st.stockfish_out = none ∨ (outEof st = true ∧ outPending st = []) ∨
      (outPending st).head? = some 10 ∨ (outPending st).head? = some 0) := by
  unfold readOutput at h
  unfold outEof outPending
  cases hso : st.stockfish_out with
  | none =>
    simp only [hso, Option.some.injEq, Prod.mk.injEq] at h
    obtain ⟨rfl, _⟩ := h
    simp
  | some f =>
    simp only [hso] at h ⊢
    -- the result when `fgets` stored something
    have key : ∀ p, st.k.chanOf f.fd = some (Chan.pipeRead p) →
        scanLine 1023 (st.k.pipeBytes p) ≠ [] →
        out = cstr (stripNewline (scanLine 1023 (st.k.pipeBytes p) ++ [0])) →
        10 ∉ out ∧ out.length ≤ 1023 ∧
        (out = [] ↔ (some f = none) ∨
          ((match st.k.chanOf f.fd with
            | some (Chan.pipeRead p) => !st.k.hasWriter p
            | _ => true) = true ∧
           (match st.k.chanOf f.fd with
            | some (Chan.pipeRead p) => st.k.pipeBytes p
            | _ => []) = []) ∨
          (match st.k.chanOf f.fd with
            | some (Chan.pipeRead p) => st.k.pipeBytes p
            | _ => []).head? = some 10 ∨
          (match st.k.chanOf f.fd with
            | some (Chan.pipeRead p) => st.k.pipeBytes p
            | _ => []).head? = some 0) := by
      intro p hch hne hout
      obtain ⟨r1, r2, r3⟩ := result_facts 1023 (st.k.pipeBytes p) (by decide) hne
      have hpend : st.k.pipeBytes p ≠ [] := by
        intro e; rw [e] at hne; exact hne rfl
      rw [hout, hch]
      refine ⟨r1, Nat.le_trans r2 (scanLine_length_le _ _), ?_⟩
      rw [r3]
      simp [hpend]
    cases hch : st.k.chanOf f.fd with
    | none =>
      simp only [fgets, hch, Option.some.injEq, Prod.mk.injEq] at h
      obtain ⟨rfl, _⟩ := h
      simp
    | some c =>
      cases c with
      | devNull =>
        simp only [fgets, hch, Option.some.injEq, Prod.mk.injEq] at h
        obtain ⟨rfl, _⟩ := h
        simp
      | pipeWrite p =>
        simp only [fgets, hch, Option.some.injEq, Prod.mk.injEq] at h
        obtain ⟨rfl, _⟩ := h
        simp
      | pipeRead p =>
        rw [← hch]
        simp only [fgets, hch] at h
        by_cases hd : (scanLine 1023 (st.k.pipeBytes p)).length = 1024 - 1 ∨
            (scanLine 1023 (st.k.pipeBytes p)).getLast? = some 10
        · rw [if_pos hd] at h
          simp only [Option.some.injEq, Prod.mk.injEq] at h
          refine key p hch ?_ h.1.symm
          intro e
          rw [e] at hd
          simp at hd
        · rw [if_neg hd] at h
          cases hw : st.k.hasWriter p with
          | true => simp [hw] at h
          | false =>
            simp only [hw] at h
            by_cases he : scanLine 1023 (st.k.pipeBytes p) = []
            · rw [if_neg (by simp), if_pos he] at h
              simp only [Option.some.injEq, Prod.mk.injEq] at h
              obtain ⟨rfl, _⟩ := h
              have hpend : st.k.pipeBytes p = [] := by
                rcases (scanLine_eq_nil 1023 _).mp he with e | e
                · cases e
                · exact e
              simp [hch, hw, hpend]
            · rw [if_neg (by simp), if_neg he] at h
              simp only [Option.some.injEq, Prod.mk.injEq] at h
              exact key p hch he h.1.symm

/-- Witness for C10: the engine wrote an empty line and then `readyok`; the call returns the
empty string, the first pending byte being `'\n'`. -/
theorem readOutput_result_shape_witness :
    ∃ st1, readOutput (afterOutput (ascii "\nreadyok\n")) = some ([], st1) ∧
      (10 ∉ ([] : List Nat) ∧ ([] : List Nat).length ≤ 1023 ∧
        (([] : List Nat) = [] ↔ (afterOutput (ascii "\nreadyok\n")).stockfish_out = none ∨
          (outEof (afterOutput (ascii "\nreadyok\n")) = true ∧
            outPending (afterOutput (ascii "\nreadyok\n")) = []) ∨
          (outPending (afterOutput (ascii "\nreadyok\n"))).head? = some 10 ∨
          (outPending (afterOutput (ascii "\nreadyok\n"))).head? = some 0)) := by
  obtain ⟨st1, e1, _, _⟩ := readOutput_full_line (afterOutput (ascii "\nreadyok\n")) 1 []
    (ascii "readyok\n") (by decide) (by decide) (by decide) (by decide) (by decide)
  exact ⟨st1, e1, readOutput_result_shape (afterOutput (ascii "\nreadyok\n")) st1 [] e1⟩

end Bridge
